import Mathlib

/-! Inventory ledger (`public/js/app.js`): shallow embedding and verified properties.

The embedding follows `class DataManager` and the backup functions of
`public/js/app.js`.

Modelling conventions

* JavaScript numbers that the ledger computes with (`id`, `qty`, `price`,
  `total`) are modelled as mathematical integers (`Int`); the arguments of
  `addProduct` and `addSale` are the values after the `Number(...)` coercion.
  `NaN`, infinities and rounding are outside the model.
* `Date.now()` and `new Date().toLocaleString()` are inputs of the operation
  that reads them (`now`, `date`).
* Objects are values.  The only in-place mutations of the source
  (`product.qty -= qty`, `product.qty += sale.qty`, `Object.assign(p, patch)`)
  act on the object returned by `Array.prototype.find`, which is the first
  element of the array satisfying the predicate; they are modelled by
  `modifyFirst`.  Every object stored in a backup is produced by
  `JSON.parse(JSON.stringify(...))`, so no live object is shared with a backup.
* `localStorage` is explicit state (`LocalStorage`), written by `save`.
* The object `counts` of `getTopProduct` is the list of its own properties in
  creation order, and `Object.keys` lists array-index keys first (`ownKeys`).
  It is a plain object, so a read of a key it does not own falls back on
  `Object.prototype` (`prototypeText`): such a value is concatenated, not added
  to, and an assignment to `__proto__` creates no own property.
* The outcome of a network request is an input of the function that makes it,
  and the function is modelled from the state in which it resumes.
-/

namespace Inventory

/-! ## Data model -/

/-- Product record built by `addProduct`. -/
structure Product where
  id : Int
  name : String
  category : String
  price : Int
  qty : Int
  dateAdded : String
deriving DecidableEq, Repr

/-- Sale record built by `addSale`. -/
structure Sale where
  id : Int
  productId : Int
  productName : String
  qty : Int
  price : Int
  total : Int
  date : String
deriving DecidableEq, Repr

/-- Feedback record built by `addFeedback`; `type` is stored as `kind`. -/
structure Feedback where
  id : Int
  kind : String
  msg : String
  date : String
deriving DecidableEq, Repr

/-- Fault record built by `addFault`; `image` is `null` or a base64 string. -/
structure Fault where
  id : Int
  description : String
  image : Option String
  date : String
deriving DecidableEq, Repr

/-- User record `{ user, email, pass, role }`. -/
structure User where
  user : String
  email : String
  pass : String
  role : String
deriving DecidableEq, Repr

/-- Local backup record built by `addLocalBackup`. -/
structure Backup where
  id : Int
  date : String
  products : List Product
  sales : List Sale
  feedback : List Feedback
  faults : List Fault
  users : List User
deriving DecidableEq, Repr

/-- Reference to an uploaded backup, pushed by `backupDataCloud`. -/
structure CloudBackupRef where
  date : String
  file : String
  url : Option String
deriving DecidableEq, Repr

/-- The fields of a `DataManager` instance.  `cloudBackups` is not set by the
constructor: it is `none` until `backupDataCloud` creates it. -/
structure DataManager where
  products : List Product
  sales : List Sale
  feedback : List Feedback
  backups : List Backup
  faults : List Fault
  users : List User
  meta : List (String × String)
  cloudBackups : Option (List CloudBackupRef)
deriving DecidableEq, Repr

/-- The seven `localStorage` entries that `DataManager` reads and writes;
`none` is an absent key. -/
structure LocalStorage where
  products : Option (List Product)
  sales : Option (List Sale)
  feedback : Option (List Feedback)
  backups : Option (List Backup)
  faults : Option (List Fault)
  users : Option (List User)
  meta : Option (List (String × String))
deriving DecidableEq, Repr

/-- The global instance `db` together with the browser's `localStorage`. -/
structure App where
  db : DataManager
  localStorage : LocalStorage
deriving DecidableEq, Repr

/-- The argument of `editProduct`: the fields of a product that the patch
object defines. -/
structure ProductPatch where
  id : Option Int
  name : Option String
  category : Option String
  price : Option Int
  qty : Option Int
  dateAdded : Option String
deriving DecidableEq, Repr

/-! ## Helpers for the JavaScript primitives -/

/-- `JSON.parse(JSON.stringify(x))`: a structurally equal, unshared copy. -/
def jsonClone {α : Type} (x : α) : α := x

/-- In-place update of the object returned by `xs.find(pred)`: the first
element satisfying `pred` is replaced by `f` of it; nothing changes when no
element satisfies `pred`. -/
def modifyFirst {α : Type} (pred : α → Bool) (f : α → α) : List α → List α
  | [] => []
  | x :: xs => if pred x then f x :: xs else x :: modifyFirst pred f xs

/-- `Object.assign(p, patch)` on a product. -/
def ProductPatch.assign (patch : ProductPatch) (p : Product) : Product :=
  { id := patch.id.getD p.id
    name := patch.name.getD p.name
    category := patch.category.getD p.category
    price := patch.price.getD p.price
    qty := patch.qty.getD p.qty
    dateAdded := patch.dateAdded.getD p.dateAdded }

/-- `obj[key] = value` on a plain object used as a map. -/
def setKey (key value : String) : List (String × String) → List (String × String)
  | [] => [(key, value)]
  | (k, v) :: rest => if k = key then (k, value) :: rest else (k, v) :: setKey key value rest

/-! ## `DataManager` -/

/-- The `DataManager` constructor: every collection is read from
`localStorage`, with `[]` (or `{}`) for an absent key. -/
def DataManager.new (ls : LocalStorage) : DataManager :=
  { products := ls.products.getD []
    sales := ls.sales.getD []
    feedback := ls.feedback.getD []
    backups := ls.backups.getD []
    faults := ls.faults.getD []
    users := ls.users.getD []
    meta := ls.meta.getD []
    cloudBackups := none }

/-- The `save` method: writes the seven collections to `localStorage`. -/
def DataManager.save (a : App) : App :=
  { a with
    localStorage :=
      { products := some a.db.products
        sales := some a.db.sales
        feedback := some a.db.feedback
        backups := some a.db.backups
        faults := some a.db.faults
        users := some a.db.users
        meta := some a.db.meta } }

/-- The `addProduct` method. -/
def DataManager.addProduct (a : App) (now : Int) (date : String)
    (name category : String) (price qty : Int) : Product × App :=
  let product : Product :=
    { id := now, name := name, category := category, price := price, qty := qty,
      dateAdded := date }
  (product, DataManager.save { a with db := { a.db with products := a.db.products ++ [product] } })

/-- The `editProduct` method. -/
def DataManager.editProduct (a : App) (id : Int) (patch : ProductPatch) : Bool × App :=
  match a.db.products.find? (fun x => decide (x.id = id)) with
  | none => (false, a)
  | some _ =>
    (true, DataManager.save { a with db := { a.db with
      products := modifyFirst (fun x => decide (x.id = id)) patch.assign a.db.products } })

/-- The `deleteProduct` method. -/
def DataManager.deleteProduct (a : App) (id : Int) : App :=
  DataManager.save { a with db := { a.db with
    products := a.db.products.filter (fun p => decide (p.id ≠ id)) } }

/-- The `addSale` method. -/
def DataManager.addSale (a : App) (now : Int) (date : String)
    (productId qty price : Int) : Bool × App :=
  match a.db.products.find? (fun p => decide (p.id = productId)) with
  | none => (false, a)
  | some product =>
    if product.qty < qty then (false, a)
    else
      let products := modifyFirst (fun p => decide (p.id = productId))
        (fun p => { p with qty := p.qty - qty }) a.db.products
      let sale : Sale :=
        { id := now, productId := productId, productName := product.name, qty := qty,
          price := price, total := qty * price, date := date }
      (true, DataManager.save { a with db := { a.db with
        products := products, sales := a.db.sales ++ [sale] } })

/-- The `deleteSale` method. -/
def DataManager.deleteSale (a : App) (id : Int) : Bool × App :=
  match a.db.sales.find? (fun s => decide (s.id = id)) with
  | none => (false, a)
  | some sale =>
    let products :=
      match a.db.products.find? (fun p => decide (p.id = sale.productId)) with
      | none => a.db.products
      | some _ => modifyFirst (fun p => decide (p.id = sale.productId))
          (fun p => { p with qty := p.qty + sale.qty }) a.db.products
    (true, DataManager.save { a with db := { a.db with
      products := products, sales := a.db.sales.filter (fun s => decide (s.id ≠ id)) } })

/-- The `addFeedback` method. -/
def DataManager.addFeedback (a : App) (now : Int) (date : String) (kind msg : String) : App :=
  DataManager.save { a with db := { a.db with
    feedback := a.db.feedback ++ [{ id := now, kind := kind, msg := msg, date := date }] } }

/-- The `addFault` method. -/
def DataManager.addFault (a : App) (now : Int) (date : String) (description : String)
    (imageBase64 : Option String) : Fault × App :=
  let f : Fault := { id := now, description := description, image := imageBase64, date := date }
  (f, DataManager.save { a with db := { a.db with faults := a.db.faults ++ [f] } })

/-- The `deleteFault` method. -/
def DataManager.deleteFault (a : App) (id : Int) : App :=
  DataManager.save { a with db := { a.db with
    faults := a.db.faults.filter (fun f => decide (f.id ≠ id)) } }

/-- The `clearFaults` method. -/
def DataManager.clearFaults (a : App) : App :=
  DataManager.save { a with db := { a.db with faults := [] } }

/-- The `addLocalBackup` method. -/
def DataManager.addLocalBackup (a : App) (now : Int) (date : String) : Backup × App :=
  let backup : Backup :=
    { id := now
      date := date
      products := jsonClone a.db.products
      sales := jsonClone a.db.sales
      feedback := jsonClone a.db.feedback
      faults := jsonClone a.db.faults
      users := jsonClone a.db.users }
  (backup, DataManager.save { a with db := { a.db with backups := a.db.backups ++ [backup] } })

/-- The `deleteLocalBackup` method; `splice(index, 1)` is `eraseIdx`. -/
def DataManager.deleteLocalBackup (a : App) (index : Int) : App :=
  if 0 ≤ index ∧ index < (a.db.backups.length : Int) then
    DataManager.save { a with db := { a.db with backups := a.db.backups.eraseIdx index.toNat } }
  else a

/-- The `getLastLocalBackup` method; `none` is `null`. -/
def DataManager.getLastLocalBackup (a : App) : Option Backup :=
  a.db.backups.getLast?

/-- The `setMeta` method. -/
def DataManager.setMeta (a : App) (key value : String) : App :=
  DataManager.save { a with db := { a.db with meta := setKey key value a.db.meta } }

/-- The `addUser` method. -/
def DataManager.addUser (a : App) (userObj : User) : App :=
  DataManager.save { a with db := { a.db with users := a.db.users ++ [userObj] } }

/-- The `updateUsers` method. -/
def DataManager.updateUsers (a : App) (usersArray : List User) : App :=
  DataManager.save { a with db := { a.db with users := usersArray } }

/-- The `clearAllData` method. -/
def DataManager.clearAllData (a : App) : App :=
  DataManager.save { a with db := { a.db with
    products := [], sales := [], feedback := [], backups := [], faults := [] } }

/-! ## Local backup functions of the page -/

/-- The function `restoreDataLocal`; `confirmed` is the answer to the `confirm`
dialog.  The calls that redraw the page are not modelled. -/
def restoreDataLocal (a : App) (confirmed : Bool) : App :=
  match DataManager.getLastLocalBackup a with
  | none => a
  | some lastBackup =>
    if !confirmed then a
    else
      DataManager.save { a with db := { a.db with
        products := jsonClone lastBackup.products
        sales := jsonClone lastBackup.sales
        feedback := jsonClone lastBackup.feedback
        faults := jsonClone lastBackup.faults
        users := jsonClone lastBackup.users } }

/-! ## Sequences of operations -/

/-- The empty ledger: a `DataManager` constructed over an empty `localStorage`. -/
def emptyStorage : LocalStorage :=
  { products := none, sales := none, feedback := none, backups := none, faults := none,
    users := none, meta := none }

/-- The application started over an empty `localStorage`. -/
def App.empty : App :=
  { db := DataManager.new emptyStorage, localStorage := emptyStorage }

/-- One call of a ledger operation, with its arguments and the clock readings
it makes. -/
inductive Op where
  | addProduct (now : Int) (date : String) (name category : String) (price qty : Int)
  | editProduct (id : Int) (patch : ProductPatch)
  | deleteProduct (id : Int)
  | addSale (now : Int) (date : String) (productId qty price : Int)
  | deleteSale (id : Int)
  | addFeedback (now : Int) (date : String) (kind msg : String)
  | addFault (now : Int) (date : String) (description : String) (image : Option String)
  | deleteFault (id : Int)
  | clearFaults
  | addLocalBackup (now : Int) (date : String)
  | deleteLocalBackup (index : Int)
  | setMeta (key value : String)
  | addUser (userObj : User)
  | updateUsers (usersArray : List User)
  | clearAllData
  | restoreDataLocal (confirmed : Bool)
deriving DecidableEq, Repr

/-- The state after one operation (its return value is dropped). -/
def Op.apply (a : App) : Op → App
  | .addProduct now date name category price qty =>
      (DataManager.addProduct a now date name category price qty).2
  | .editProduct id patch => (DataManager.editProduct a id patch).2
  | .deleteProduct id => DataManager.deleteProduct a id
  | .addSale now date productId qty price =>
      (DataManager.addSale a now date productId qty price).2
  | .deleteSale id => (DataManager.deleteSale a id).2
  | .addFeedback now date kind msg => DataManager.addFeedback a now date kind msg
  | .addFault now date description image =>
      (DataManager.addFault a now date description image).2
  | .deleteFault id => DataManager.deleteFault a id
  | .clearFaults => DataManager.clearFaults a
  | .addLocalBackup now date => (DataManager.addLocalBackup a now date).2
  | .deleteLocalBackup index => DataManager.deleteLocalBackup a index
  | .setMeta key value => DataManager.setMeta a key value
  | .addUser userObj => DataManager.addUser a userObj
  | .updateUsers usersArray => DataManager.updateUsers a usersArray
  | .clearAllData => DataManager.clearAllData a
  | .restoreDataLocal confirmed => Inventory.restoreDataLocal a confirmed

/-- The state after a sequence of operations, applied from left to right. -/
def run (a : App) (ops : List Op) : App :=
  ops.foldl Op.apply a

/-! ## Specification-level quantities -/

/-- Sum of `qty` over the sales whose `productId` is `pid`. -/
def soldQty (sales : List Sale) (pid : Int) : Int :=
  ((sales.filter (fun s => decide (s.productId = pid))).map (fun s => s.qty)).sum

/-- A product's `qty` plus the quantity held by the live sales that refer to it. -/
def stockTotal (sales : List Sale) (p : Product) : Int :=
  p.qty + soldQty sales p.id

/-- The conserved view of a ledger: every product's id with its `stockTotal`. -/
def stockView (a : App) : List (Int × Int) :=
  a.db.products.map (fun p => (p.id, stockTotal a.db.sales p))

/-! ## Predicates on operations and states -/

/-- The quantities an operation passes in are not negative: the `qty` of
`addProduct` and of `addSale`, and the `qty` of an `editProduct` patch when the
patch defines it. -/
def Op.qtyNonneg : Op → Bool
  | .addProduct _ _ _ _ _ qty => decide (0 ≤ qty)
  | .editProduct _ patch =>
    match patch.qty with
    | some q => decide (0 ≤ q)
    | none => true
  | .addSale _ _ _ qty _ => decide (0 ≤ qty)
  | _ => true

/-- Stock invariant, with what it needs to be inductive: no product, sale,
backed-up product or backed-up sale has a negative `qty`. -/
def StockInv (a : App) : Prop :=
  (∀ p ∈ a.db.products, 0 ≤ p.qty) ∧ (∀ s ∈ a.db.sales, 0 ≤ s.qty) ∧
  (∀ b ∈ a.db.backups, (∀ p ∈ b.products, 0 ≤ p.qty) ∧ (∀ s ∈ b.sales, 0 ≤ s.qty))

/-- Every live sale and every backed-up sale satisfies `P`. -/
def SalesAll (P : Sale → Prop) (a : App) : Prop :=
  (∀ s ∈ a.db.sales, P s) ∧ (∀ b ∈ a.db.backups, ∀ s ∈ b.sales, P s)

/-- The sale `s` was created by an `addSale` call of the sequence `ops`: the
sequence splits around a call `addSale(productId, qty, price)` that, in the
state reached by the operations before it, returned `true` and appended `s` to
the sales, and `s` has the `qty` and `price` given to that call and the `total`
computed from them. -/
def CreatedBy (ops : List Op) (s : Sale) : Prop :=
  ∃ (ops1 ops2 : List Op) (now : Int) (date : String) (productId qty price : Int),
    ops = ops1 ++ Op.addSale now date productId qty price :: ops2 ∧
    (DataManager.addSale (run App.empty ops1) now date productId qty price).1 = true ∧
    (DataManager.addSale (run App.empty ops1) now date productId qty price).2.db.sales =
      (run App.empty ops1).db.sales ++ [s] ∧
    s.qty = qty ∧ s.price = price ∧ s.total = qty * price

/-- The operations that mutate live data or take and restore local backups:
every operation except the two that remove entries of the backup history
(`deleteLocalBackup`, `clearAllData`). -/
def Op.isLedgerMutation : Op → Bool
  | .deleteLocalBackup _ => false
  | .clearAllData => false
  | _ => true

/-! ## Concrete ledgers used to exercise the theorems -/

/-- Product A of the scenario of the specification: `qty = 10`, `price = 5`. -/
def scenarioProduct : Product :=
  { id := 1, name := "A", category := "misc", price := 5, qty := 10, dateAdded := "1/1/2025" }

/-- A ledger holding only `scenarioProduct`. -/
def scenarioApp : App :=
  { db :=
      { products := [scenarioProduct], sales := [], feedback := [], backups := [], faults := [],
        users := [], meta := [], cloudBackups := none }
    localStorage := emptyStorage }

/-- A reachable ledger in which two sales carry the same id: product A is
created, then two sales are recorded while `Date.now()` reads 7. -/
def collidingApp : App :=
  run App.empty
    [Op.addProduct 1 "1/1/2025" "A" "misc" 5 10, Op.addSale 7 "t" 1 2 5, Op.addSale 7 "t" 1 3 5]

/-- A reachable ledger with one sale (id 7, 2 units) of product A. -/
def oneSaleApp : App :=
  run App.empty [Op.addProduct 1 "1/1/2025" "A" "misc" 5 10, Op.addSale 7 "t" 1 2 5]

/-- A reachable ledger in which two products carry the same id: A and B are
both created while `Date.now()` reads 1, each with 5 units. -/
def twinApp : App :=
  run App.empty [Op.addProduct 1 "1/1/2025" "A" "misc" 5 5, Op.addProduct 1 "1/1/2025" "B" "misc" 5 5]

/-! ## Queries of `DataManager` -/

/-- The expression `x || 0` on a number: `0` is the only falsy integer. -/
def orZero (x : Int) : Int := if x = 0 then 0 else x

/-- The `getTotalSales` method: `reduce((sum, s) => sum + (s.total || 0), 0)`.
It reads `sales` and assigns nothing, so it has no state result. -/
def DataManager.getTotalSales (a : App) : Int :=
  a.db.sales.foldl (fun sum s => sum + orZero s.total) 0

/-- The `getLowStockProducts` method; `threshold` is `none` when the argument
is omitted, and the default parameter value is 10. -/
def DataManager.getLowStockProducts (a : App) (threshold : Option Int) : List Product :=
  a.db.products.filter (fun p => decide (p.qty < threshold.getD 10))

/-- A value stored in a property of the object `counts`: a number, or the
string that `+` produces once an inherited value has been read. -/
inductive CountVal where
  | num (n : Int)
  | str (s : String)
deriving DecidableEq, Repr

/-- The result of the read `counts[k]`: `undefined`, the value of an own
property, or a value inherited from `Object.prototype`, kept as the string that
`+` converts it to. -/
inductive ReadVal where
  | undefined
  | own (v : CountVal)
  | inherited (text : String)
deriving DecidableEq, Repr

/-- The string to which `+` converts the value that a plain object inherits
from `Object.prototype` under the key `k`, `none` when nothing is inherited:
`__proto__` reads the prototype object itself, `constructor` the function
`Object`, and the ten method names a built-in function of that name (source
text as printed by V8 and JavaScriptCore). -/
def prototypeText (k : String) : Option String :=
  if k = "__proto__" then some "[object Object]"
  else if k = "constructor" then some "function Object() \x7b [native code] \x7d"
  else if k ∈ ["__defineGetter__", "__defineSetter__", "hasOwnProperty", "__lookupGetter__",
      "__lookupSetter__", "isPrototypeOf", "propertyIsEnumerable", "toString", "valueOf",
      "toLocaleString"] then
    some ("function " ++ k ++ "() \x7b [native code] \x7d")
  else none

/-- The own property `k` of `counts`, the object being the list of its own
properties in creation order. -/
def ownGet (counts : List (String × CountVal)) (k : String) : Option CountVal :=
  match counts with
  | [] => none
  | (k', v) :: rest => if k' = k then some v else ownGet rest k

/-- Assignment to the existing own property `k`: it keeps its place. -/
def replaceOwn (counts : List (String × CountVal)) (k : String) (v : CountVal) :
    List (String × CountVal) :=
  match counts with
  | [] => []
  | (k', v') :: rest => if k' = k then (k', v) :: rest else (k', v') :: replaceOwn rest k v

/-- The read `counts[k]`: the own property if there is one, else what
`Object.prototype` provides. -/
def countsRead (counts : List (String × CountVal)) (k : String) : ReadVal :=
  match ownGet counts k with
  | some v => .own v
  | none =>
    match prototypeText k with
    | some text => .inherited text
    | none => .undefined

/-- The expression `(r || 0) + q` for a number `q`: `undefined`, `0` and the
empty string are falsy; a number is added to, a string or an inherited object
is concatenated with the decimal text of `q`. -/
def orZeroPlus (r : ReadVal) (q : Int) : CountVal :=
  match r with
  | .undefined => .num (0 + q)
  | .own (.num n) => .num (orZero n + q)
  | .own (.str s) => if s = "" then .num (0 + q) else .str (s ++ toString q)
  | .inherited text => .str (text ++ toString q)

/-- The statement `counts[k] = (counts[k] || 0) + q`.  An existing own property
is overwritten in place; otherwise a new own property is created last, except
for the key `__proto__`, whose inherited setter ignores a value that is not an
object and creates nothing. -/
def countsAdd (counts : List (String × CountVal)) (k : String) (q : Int) :
    List (String × CountVal) :=
  match ownGet counts k with
  | some _ => replaceOwn counts k (orZeroPlus (countsRead counts k) q)
  | none =>
    if k = "__proto__" then counts
    else counts ++ [(k, orZeroPlus (countsRead counts k) q)]

/-- Comparison of two strings by code units, as `>` does on strings. -/
def charsGt : List Char → List Char → Bool
  | [], _ => false
  | _ :: _, [] => true
  | c :: cs, d :: ds =>
    if d.toNat < c.toNat then true else if c.toNat < d.toNat then false else charsGt cs ds

/-- The comparison `x > y` on values read from `counts`.  Two numbers are
compared as numbers and two strings as strings; a number against a string
converts the string to a number, which is `NaN` for every string that
`countsAdd` can store (it starts with `function` or `[object`), and `undefined`
converts to `NaN` too, so those comparisons are `false`. -/
def jsGt (x y : ReadVal) : Bool :=
  match x, y with
  | .own (.num m), .own (.num n) => decide (m > n)
  | .own (.str s), .own (.str t) => charsGt s.toList t.toList
  | .own (.str s), .inherited t => charsGt s.toList t.toList
  | .inherited s, .own (.str t) => charsGt s.toList t.toList
  | .inherited s, .inherited t => charsGt s.toList t.toList
  | _, _ => false

/-- The array index a property key denotes, if any: the key is the canonical
decimal numeral (no sign, no leading zero) of a number below `2^32 - 1`. -/
def arrayIndex? (s : String) : Option Nat :=
  match s.toList with
  | [] => none
  | c :: cs =>
    if (c :: cs).all Char.isDigit = true ∧ (c ≠ '0' ∨ cs = []) then
      if (c :: cs).foldl (fun acc d => 10 * acc + (d.toNat - 48)) 0 < 4294967295 then
        some ((c :: cs).foldl (fun acc d => 10 * acc + (d.toNat - 48)) 0)
      else none
    else none

/-- Insertion of an array-index key into a list of such keys sorted by value. -/
def insertIndexKey (k : String) : List String → List String
  | [] => [k]
  | x :: xs =>
    if (arrayIndex? k).getD 0 ≤ (arrayIndex? x).getD 0 then k :: x :: xs
    else x :: insertIndexKey k xs

/-- Array-index keys in ascending numeric order. -/
def sortIndexKeys : List String → List String
  | [] => []
  | k :: ks => insertIndexKey k (sortIndexKeys ks)

/-- The order in which `Object.keys` lists the own properties of a plain
object whose keys were created in the order `created`: first the array-index
keys in ascending numeric order, then the other keys in creation order. -/
def ownKeys (created : List String) : List String :=
  sortIndexKeys (created.filter (fun k => (arrayIndex? k).isSome)) ++
    created.filter (fun k => !(arrayIndex? k).isSome)

/-- The object `counts` after the `forEach` of `getTopProduct`. -/
def tally (sales : List Sale) : List (String × CountVal) :=
  sales.foldl (fun counts s => countsAdd counts s.productName s.qty) []

/-- The `getTopProduct` method.  `.ok none` is `null`; `.error` is the
`TypeError` that `reduce` without initial value throws on an empty array. -/
def DataManager.getTopProduct (a : App) : Except String (Option String) :=
  if a.db.sales.length = 0 then .ok none
  else
    match ownKeys ((tally a.db.sales).map Prod.fst) with
    | [] => .error "TypeError: Reduce of empty array with no initial value"
    | k :: ks =>
      .ok (some (ks.foldl (fun x y =>
        if jsGt (countsRead (tally a.db.sales) x) (countsRead (tally a.db.sales) y) = true
        then x else y) k))

/-- Sum of `qty` over the sales whose `productName` is `name`. -/
def cumQty (sales : List Sale) (name : String) : Int :=
  ((sales.filter (fun s => decide (s.productName = name))).map (fun s => s.qty)).sum

/-- A dictionary without inherited properties, used to describe the tally when
no inherited name occurs: `plainAdd` adds `q` to the entry of `k`, creating it
last when it is missing. -/
def plainAdd (counts : List (String × Int)) (k : String) (q : Int) : List (String × Int) :=
  match counts with
  | [] => [(k, orZero 0 + q)]
  | (k', v) :: rest =>
    if k' = k then (k', orZero v + q) :: rest else (k', v) :: plainAdd rest k q

/-- The entry of `k` in a dictionary without inherited properties, `0` when it
is missing. -/
def plainGet (counts : List (String × Int)) (k : String) : Int :=
  match counts with
  | [] => 0
  | (k', v) :: rest => if k' = k then v else plainGet rest k

/-- A dictionary without inherited properties as an object of numbers. -/
def liftCounts (counts : List (String × Int)) : List (String × CountVal) :=
  counts.map (fun kv => (kv.1, CountVal.num kv.2))

/-- The distinct elements of a list in the order of their first occurrence. -/
def firstSeen : List String → List String
  | [] => []
  | x :: xs => x :: (firstSeen xs).filter (fun y => decide (y ≠ x))

/-- A reachable ledger with two sales of one unit each, first of A, then of B. -/
def tieApp : App :=
  run App.empty
    [Op.addProduct 1 "1/1/2025" "A" "misc" 5 10, Op.addProduct 2 "1/1/2025" "B" "misc" 5 10,
     Op.addSale 3 "t" 1 1 5, Op.addSale 4 "t" 2 1 5]

/-- A reachable ledger with one sale of a product named `__proto__`. -/
def protoApp : App :=
  run App.empty [Op.addProduct 1 "1/1/2025" "__proto__" "misc" 5 10, Op.addSale 2 "t" 1 1 5]

/-- A reachable ledger with sales of 5 units of a product named `toString`, 1
unit of A and 1 more unit of `toString`. -/
def toStringApp : App :=
  run App.empty
    [Op.addProduct 1 "1/1/2025" "toString" "misc" 5 10, Op.addProduct 2 "1/1/2025" "A" "misc" 5 10,
     Op.addSale 3 "t" 1 5 5, Op.addSale 4 "t" 2 1 5, Op.addSale 5 "t" 1 1 5]

/-- A reachable ledger whose backup history has two entries: one taken before
and one taken after a sale of 3 units of A. -/
def twoBackupsApp : App :=
  run App.empty
    [Op.addProduct 1 "1/1/2025" "A" "misc" 5 10, Op.addLocalBackup 4 "t", Op.addSale 5 "t" 1 3 5,
     Op.addLocalBackup 6 "t"]

/-! ## Cloud backup functions of the page -/

/-- The JSON object exchanged with the bucket.  A field is `none` when the
object does not define it (`backupDataCloud` defines all six,
`uploadCloudBackup` defines no `users`, a downloaded object may define any). -/
structure CloudBackup where
  date : Option String
  products : Option (List Product)
  sales : Option (List Sale)
  faults : Option (List Fault)
  feedback : Option (List Feedback)
  users : Option (List User)
deriving DecidableEq, Repr

/-- What the upload request of `backupDataCloud` gives back: `failed` when
`fetch` or `res.json()` throws, otherwise the fields `name` and `mediaLink` of
the decoded answer (`none` when the answer does not define them). -/
inductive UploadResponse where
  | failed
  | json (name : Option String) (mediaLink : Option String)
deriving DecidableEq, Repr

/-- The body `backupData` that `backupDataCloud` sends. -/
def backupDataCloudBody (a : App) (date : String) : CloudBackup :=
  { date := some date, products := some a.db.products, sales := some a.db.sales,
    faults := some a.db.faults, feedback := some a.db.feedback, users := some a.db.users }

/-- The function `backupDataCloud`, with the answer of the upload request as
input; `!data.name` holds for a missing and for an empty name.  Alerts and the
redrawing of the list are not modelled. -/
def backupDataCloud (a : App) (date : String) (res : UploadResponse) : App :=
  match res with
  | .failed => a
  | .json none _ => a
  | .json (some name) mediaLink =>
    if name = "" then a
    else
      DataManager.save { a with db := { a.db with
        cloudBackups := some (a.db.cloudBackups.getD [] ++
          [{ date := date, file := name, url := mediaLink }]) } }

/-- The object `backup` that `uploadCloudBackup` sends: products, sales and
feedback of `db`, and the faults read from `localStorage`. -/
def uploadCloudBackupBody (a : App) (date : String) : CloudBackup :=
  { date := some date, products := some a.db.products, sales := some a.db.sales,
    faults := some (a.localStorage.faults.getD []), feedback := some a.db.feedback,
    users := none }

/-- The function `uploadCloudBackup`; `remote` is the content of the bucket
file `backup_inventario.json` and `uploaded` tells whether `uploadString`
succeeded.  The result is the local state and the new content of the file. -/
def uploadCloudBackup (a : App) (remote : Option CloudBackup) (date : String) (uploaded : Bool) :
    App × Option CloudBackup :=
  if uploaded then (a, some (uploadCloudBackupBody a date)) else (a, remote)

/-- The function `downloadCloudBackup`; `fetched` is the decoded content of the
bucket file, `none` when `getDownloadURL`, `fetch` or `response.json()` throws.
The calls that redraw the page are not modelled. -/
def downloadCloudBackup (a : App) (fetched : Option CloudBackup) : App :=
  match fetched with
  | none => a
  | some cloudBackup =>
    let restored : App := { a with db := { a.db with
      products := cloudBackup.products.getD []
      sales := cloudBackup.sales.getD []
      feedback := cloudBackup.feedback.getD [] } }
    let written : App := { restored with localStorage := { restored.localStorage with
      faults := some (cloudBackup.faults.getD []) } }
    DataManager.save written

/-- The function `restoreDataCloud`, the other restore from the bucket;
`fetched` is the decoded backup (`none` when the request throws) and
`confirmed` the answer to the `confirm` dialog. -/
def restoreDataCloud (a : App) (fetched : Option CloudBackup) (confirmed : Bool) : App :=
  match fetched with
  | none => a
  | some backup =>
    if !confirmed then a
    else
      DataManager.save { a with db := { a.db with
        products := backup.products.getD []
        sales := backup.sales.getD []
        faults := backup.faults.getD []
        feedback := backup.feedback.getD []
        users := backup.users.getD [] } }

/-- A reachable ledger with one registered fault. -/
def faultyApp : App :=
  run App.empty
    [Op.addProduct 1 "1/1/2025" "A" "misc" 5 10, Op.addFault 2 "t" "broken scanner" none]

/-- The content of the bucket file after `uploadCloudBackup` on `faultyApp`. -/
def faultyCloudBackup : CloudBackup :=
  uploadCloudBackupBody faultyApp "t"

/-- A reachable ledger with two sales of one unit each, first of B, then of a
product named 7. -/
def indexTieApp : App :=
  run App.empty
    [Op.addProduct 1 "1/1/2025" "B" "misc" 5 10, Op.addProduct 2 "1/1/2025" "7" "misc" 5 10,
     Op.addSale 3 "t" 1 1 5, Op.addSale 4 "t" 2 1 5]

/-! ## Lemmas on `find` and the in-place update -/

theorem find?_none_of_forall {α : Type} (pred : α → Bool) (xs : List α)
    (h : ∀ x ∈ xs, pred x = false) : xs.find? pred = none := by
  induction xs with
  | nil => rfl
  | cons x xs ih =>
    have hx : pred x = false := h x (List.mem_cons_self x xs)
    have hxs : ∀ y ∈ xs, pred y = false := fun y hy => h y (List.mem_cons_of_mem x hy)
    simp [List.find?, hx, ih hxs]

theorem find?_split_of_some {α : Type} (pred : α → Bool) (xs : List α) (p : α)
    (h : xs.find? pred = some p) :
    ∃ pre post, xs = pre ++ p :: post ∧ (∀ x ∈ pre, pred x = false) ∧ pred p = true := by
  induction xs with
  | nil => simp at h
  | cons x xs ih =>
    by_cases hx : pred x = true
    · have hp : x = p := by simpa [List.find?, hx] using h
      subst hp
      exact ⟨[], xs, rfl, by simp, hx⟩
    · have hx' : pred x = false := by simpa using hx
      have h' : xs.find? pred = some p := by simpa [List.find?, hx'] using h
      obtain ⟨pre, post, hsplit, hpre, hp⟩ := ih h'
      refine ⟨x :: pre, post, by simp [hsplit], ?_, hp⟩
      intro y hy
      rcases List.mem_cons.mp hy with rfl | hy
      · exact hx'
      · exact hpre y hy

theorem find?_of_split {α : Type} (pred : α → Bool) (pre post : List α) (p : α)
    (hpre : ∀ x ∈ pre, pred x = false) (hp : pred p = true) :
    (pre ++ p :: post).find? pred = some p := by
  induction pre with
  | nil => simp [List.find?, hp]
  | cons x pre ih =>
    have hx : pred x = false := hpre x (List.mem_cons_self x pre)
    have hrest : ∀ y ∈ pre, pred y = false := fun y hy => hpre y (List.mem_cons_of_mem x hy)
    simp [List.find?, hx, ih hrest]

theorem modifyFirst_of_split {α : Type} (pred : α → Bool) (f : α → α) (pre post : List α)
    (p : α) (hpre : ∀ x ∈ pre, pred x = false) (hp : pred p = true) :
    modifyFirst pred f (pre ++ p :: post) = pre ++ f p :: post := by
  induction pre with
  | nil => simp [modifyFirst, hp]
  | cons x pre ih =>
    have hx : pred x = false := hpre x (List.mem_cons_self x pre)
    have hrest : ∀ y ∈ pre, pred y = false := fun y hy => hpre y (List.mem_cons_of_mem x hy)
    simp [modifyFirst, hx, ih hrest]

theorem modifyFirst_of_forall_false {α : Type} (pred : α → Bool) (f : α → α) (xs : List α)
    (h : ∀ x ∈ xs, pred x = false) : modifyFirst pred f xs = xs := by
  induction xs with
  | nil => rfl
  | cons x xs ih =>
    have hx : pred x = false := h x (List.mem_cons_self x xs)
    have hxs : ∀ y ∈ xs, pred y = false := fun y hy => h y (List.mem_cons_of_mem x hy)
    simp [modifyFirst, hx, ih hxs]

theorem mem_modifyFirst {α : Type} (pred : α → Bool) (f : α → α) (xs : List α) (y : α)
    (h : y ∈ modifyFirst pred f xs) : y ∈ xs ∨ ∃ x, xs.find? pred = some x ∧ y = f x := by
  induction xs with
  | nil => simp [modifyFirst] at h
  | cons x xs ih =>
    by_cases hx : pred x = true
    · simp only [modifyFirst, hx, if_true, List.mem_cons] at h
      rcases h with rfl | h
      · exact Or.inr ⟨x, by simp [List.find?, hx], rfl⟩
      · exact Or.inl (List.mem_cons_of_mem x h)
    · have hx' : pred x = false := by simpa using hx
      simp only [modifyFirst, hx', Bool.false_eq_true, if_false, List.mem_cons] at h
      rcases h with rfl | h
      · exact Or.inl (List.mem_cons_self y xs)
      · rcases ih h with h1 | ⟨z, hz, hyz⟩
        · exact Or.inl (List.mem_cons_of_mem x h1)
        · exact Or.inr ⟨z, by simp [List.find?, hx', hz], hyz⟩

theorem mem_of_find?_some {α : Type} (pred : α → Bool) (xs : List α) (p : α)
    (h : xs.find? pred = some p) : p ∈ xs := by
  obtain ⟨pre, post, hsplit, _, _⟩ := find?_split_of_some pred xs p h
  simp [hsplit]

@[simp] theorem save_db (a : App) : (DataManager.save a).db = a.db := rfl

/-! ## `addSale` -/

/-- C1: when no product has the requested id, or the product found by that id
has less stock than the requested quantity, `addSale` returns `false` and the
whole state (every collection and `localStorage`) is exactly as before. -/
theorem addSale_rejects (a : App) (now : Int) (date : String) (productId qty price : Int)
    (h : (∀ p ∈ a.db.products, p.id ≠ productId) ∨
      (∃ p, a.db.products.find? (fun p => decide (p.id = productId)) = some p ∧ p.qty < qty)) :
    DataManager.addSale a now date productId qty price = (false, a) := by
  rcases h with h | ⟨p, hfind, hlt⟩
  · have hnone : a.db.products.find? (fun p => decide (p.id = productId)) = none :=
      find?_none_of_forall _ _ (fun x hx => by simpa using h x hx)
    simp [DataManager.addSale, hnone]
  · simp [DataManager.addSale, hfind, hlt]

/-- Witness of `addSale_rejects`: asking for 11 units of product A (10 in stock). -/
theorem addSale_rejects_witness :
    (∃ p, scenarioApp.db.products.find? (fun p => decide (p.id = 1)) = some p ∧ p.qty < 11) ∧
      DataManager.addSale scenarioApp 2 "t" 1 11 5 = (false, scenarioApp) :=
  ⟨⟨scenarioProduct, by decide, by decide⟩,
    addSale_rejects scenarioApp 2 "t" 1 11 5 (Or.inr ⟨scenarioProduct, by decide, by decide⟩)⟩

/-- C2: when the product found by `productId` is `p` (the first product of the
list with that id) and `qty ≤ p.qty`, `addSale` returns `true`, replaces `p` by
`p` with `qty` decreased by exactly `qty`, leaves every other product as it was,
appends exactly one sale built from the arguments (name copied from `p`,
`total = qty * price`) after the earlier sales, and changes no other
collection. -/
theorem addSale_accepts (a : App) (now : Int) (date : String) (productId qty price : Int)
    (pre post : List Product) (p : Product)
    (hsplit : a.db.products = pre ++ p :: post)
    (hpre : ∀ x ∈ pre, x.id ≠ productId) (hp : p.id = productId) (hq : qty ≤ p.qty) :
    (DataManager.addSale a now date productId qty price).1 = true ∧
    (DataManager.addSale a now date productId qty price).2.db.products =
      pre ++ { p with qty := p.qty - qty } :: post ∧
    (DataManager.addSale a now date productId qty price).2.db.sales =
      a.db.sales ++ [Sale.mk now productId p.name qty price (qty * price) date] ∧
    (DataManager.addSale a now date productId qty price).2.db.feedback = a.db.feedback ∧
    (DataManager.addSale a now date productId qty price).2.db.backups = a.db.backups ∧
    (DataManager.addSale a now date productId qty price).2.db.faults = a.db.faults ∧
    (DataManager.addSale a now date productId qty price).2.db.users = a.db.users ∧
    (DataManager.addSale a now date productId qty price).2.db.meta = a.db.meta ∧
    (DataManager.addSale a now date productId qty price).2.db.cloudBackups =
      a.db.cloudBackups := by
  have hpre' : ∀ x ∈ pre, decide (x.id = productId) = false := fun x hx => by
    simpa using hpre x hx
  have hp' : decide (p.id = productId) = true := by simpa using hp
  have hfind : a.db.products.find? (fun p => decide (p.id = productId)) = some p := by
    rw [hsplit]; exact find?_of_split _ pre post p hpre' hp'
  have hmod : modifyFirst (fun p => decide (p.id = productId))
      (fun p => { p with qty := p.qty - qty }) a.db.products =
      pre ++ { p with qty := p.qty - qty } :: post := by
    rw [hsplit]; exact modifyFirst_of_split _ _ pre post p hpre' hp'
  have hnlt : ¬ p.qty < qty := not_lt.mpr hq
  simp [DataManager.addSale, hfind, hnlt, hmod]

/-- Witness of `addSale_accepts`: the first step of the scenario of the
specification, `addSale(A, 3, 5)` on a stock of 10. -/
theorem addSale_accepts_witness :
    (DataManager.addSale scenarioApp 2 "t" 1 3 5).1 = true ∧
    (DataManager.addSale scenarioApp 2 "t" 1 3 5).2.db.products =
      [{ scenarioProduct with qty := 7 }] ∧
    (DataManager.addSale scenarioApp 2 "t" 1 3 5).2.db.sales =
      [Sale.mk 2 1 "A" 3 5 15 "t"] := by
  have h := addSale_accepts scenarioApp 2 "t" 1 3 5 [] [] scenarioProduct rfl
    (by simp) rfl (by decide)
  exact ⟨h.1, h.2.1, h.2.2.1⟩

/-! ## `deleteSale` -/

theorem filter_ne_of_split {α : Type} (pred : α → Bool) (pre post : List α) (p : α)
    (hpre : ∀ x ∈ pre, pred x = false) (hp : pred p = true)
    (hpost : ∀ x ∈ post, pred x = false) :
    (pre ++ p :: post).filter (fun x => !pred x) = pre ++ post := by
  have h1 : pre.filter (fun x => !pred x) = pre :=
    List.filter_eq_self.mpr (fun x hx => by simp [hpre x hx])
  have h2 : post.filter (fun x => !pred x) = post :=
    List.filter_eq_self.mpr (fun x hx => by simp [hpost x hx])
  simp [List.filter_append, List.filter_cons, hp, h1, h2]

/-- C4 (as stated) fails when the id given to the new sale is already the id of
an earlier sale: on `oneSaleApp` (A has 8 units, one sale with id 7), a second
sale recorded with id 7 succeeds, and `deleteSale 7` then removes both sales
and gives back only the 2 units of the first, so neither products nor sales are
those of the state before the second sale. -/
theorem deleteSale_addSale_collision :
    (DataManager.addSale oneSaleApp 7 "t" 1 3 5).1 = true ∧
    (DataManager.deleteSale (DataManager.addSale oneSaleApp 7 "t" 1 3 5).2 7).2.db.products
      ≠ oneSaleApp.db.products ∧
    (DataManager.deleteSale (DataManager.addSale oneSaleApp 7 "t" 1 3 5).2 7).2.db.sales
      ≠ oneSaleApp.db.sales := by
  decide

/-- C4 (amended): for every ledger state and every successful `addSale` whose
new sale receives an id (`now`) that no earlier sale has, `deleteSale` of that
id immediately afterwards returns `true` and yields products and sales (indeed
the whole `DataManager`) equal to those before the sale. -/
theorem deleteSale_addSale_inverse (a : App) (now : Int) (date : String)
    (productId qty price : Int)
    (hok : (DataManager.addSale a now date productId qty price).1 = true)
    (hfresh : ∀ s ∈ a.db.sales, s.id ≠ now) :
    (DataManager.deleteSale (DataManager.addSale a now date productId qty price).2 now).1 = true ∧
    (DataManager.deleteSale (DataManager.addSale a now date productId qty price).2 now).2.db.products
      = a.db.products ∧
    (DataManager.deleteSale (DataManager.addSale a now date productId qty price).2 now).2.db.sales
      = a.db.sales ∧
    (DataManager.deleteSale (DataManager.addSale a now date productId qty price).2 now).2.db
      = a.db := by
  cases hfind : a.db.products.find? (fun p => decide (p.id = productId)) with
  | none => simp [DataManager.addSale, hfind] at hok
  | some p =>
    by_cases hlt : p.qty < qty
    · simp [DataManager.addSale, hfind, hlt] at hok
    · obtain ⟨pre, post, hsplit, hpre, hp⟩ := find?_split_of_some _ _ _ hfind
      have hmod : modifyFirst (fun p => decide (p.id = productId))
          (fun p => { p with qty := p.qty - qty }) a.db.products =
          pre ++ { p with qty := p.qty - qty } :: post := by
        rw [hsplit]; exact modifyFirst_of_split _ _ pre post p hpre hp
      have hsale : (a.db.sales ++ [Sale.mk now productId p.name qty price (qty * price) date]).find?
          (fun s => decide (s.id = now)) =
          some (Sale.mk now productId p.name qty price (qty * price) date) :=
        find?_of_split _ a.db.sales [] _ (fun s hs => by simpa using hfresh s hs) (by simp)
      have hfilter : (a.db.sales ++ [Sale.mk now productId p.name qty price (qty * price) date]).filter
          (fun s => decide (s.id ≠ now)) = a.db.sales := by
        have := filter_ne_of_split (fun s : Sale => decide (s.id = now)) a.db.sales []
          (Sale.mk now productId p.name qty price (qty * price) date)
          (fun s hs => by simpa using hfresh s hs) (by simp) (by simp)
        simpa using this
      have hp2 : decide (({ p with qty := p.qty - qty } : Product).id = productId) = true := hp
      have hfind2 : (pre ++ { p with qty := p.qty - qty } :: post).find?
          (fun p => decide (p.id = productId)) = some { p with qty := p.qty - qty } :=
        find?_of_split _ pre post _ hpre hp2
      have hmod2 : modifyFirst (fun p => decide (p.id = productId))
          (fun x => { x with qty := x.qty + qty })
          (pre ++ { p with qty := p.qty - qty } :: post) = a.db.products := by
        rw [modifyFirst_of_split _ _ pre post _ hpre hp2, hsplit]
        simp
      have hstate : (DataManager.deleteSale
          (DataManager.addSale a now date productId qty price).2 now).2.db = a.db := by
        simp only [DataManager.addSale, hfind, hlt, if_false, hmod, DataManager.deleteSale,
          save_db, hsale, hfind2, hmod2, hfilter]
      refine ⟨?_, by rw [hstate], by rw [hstate], hstate⟩
      simp only [DataManager.addSale, hfind, hlt, if_false, hmod, DataManager.deleteSale,
        save_db, hsale]

/-- Witness of `deleteSale_addSale_inverse`: the scenario of the specification
(sell 3 units of A with a fresh sale id 2, then delete sale 2). -/
theorem deleteSale_addSale_inverse_witness :
    (DataManager.addSale scenarioApp 2 "t" 1 3 5).1 = true ∧
    (DataManager.deleteSale (DataManager.addSale scenarioApp 2 "t" 1 3 5).2 2).1 = true ∧
    (DataManager.deleteSale (DataManager.addSale scenarioApp 2 "t" 1 3 5).2 2).2.db
      = scenarioApp.db :=
  have h := deleteSale_addSale_inverse scenarioApp 2 "t" 1 3 5 (by decide) (by simp [scenarioApp])
  ⟨by decide, h.1, h.2.2.2⟩

/-- C5 (as stated) fails when two sales share an id: in `collidingApp` the sale
found by id 7 is the one of 2 units, the sale of 3 units is another sale of the
list, and `deleteSale 7` does not keep it. -/
theorem deleteSale_drops_other_sale :
    collidingApp.db.sales.find? (fun s => decide (s.id = 7)) = some (Sale.mk 7 1 "A" 2 5 10 "t") ∧
    Sale.mk 7 1 "A" 3 5 15 "t" ∈ collidingApp.db.sales ∧
    Sale.mk 7 1 "A" 3 5 15 "t" ≠ Sale.mk 7 1 "A" 2 5 10 "t" ∧
    (DataManager.deleteSale collidingApp 7).1 = true ∧
    Sale.mk 7 1 "A" 3 5 15 "t" ∉ (DataManager.deleteSale collidingApp 7).2.db.sales := by
  decide

/-- C5 (amended): if no sale has the id, `deleteSale` returns `false` and
changes nothing.  Otherwise, with `s` the sale found by the id (the first one
with it), `deleteSale` returns `true`; the new sales are the old ones without
every sale of that id, in their order (so exactly `s` is removed when no other
sale shares its id); the products are unchanged when no product has id
`s.productId`, and otherwise the product found by `s.productId` has `s.qty`
added to its `qty` and every other product is unchanged; no other collection
changes. -/
theorem deleteSale_spec (a : App) (id : Int) :
    ((∀ s ∈ a.db.sales, s.id ≠ id) → DataManager.deleteSale a id = (false, a)) ∧
    (∀ s, a.db.sales.find? (fun x => decide (x.id = id)) = some s →
      (DataManager.deleteSale a id).1 = true ∧
      (DataManager.deleteSale a id).2.db.sales = a.db.sales.filter (fun x => decide (x.id ≠ id)) ∧
      (∀ spre spost, a.db.sales = spre ++ s :: spost →
        (∀ x ∈ spre, x.id ≠ id) → (∀ x ∈ spost, x.id ≠ id) →
        (DataManager.deleteSale a id).2.db.sales = spre ++ spost) ∧
      ((∀ p ∈ a.db.products, p.id ≠ s.productId) →
        (DataManager.deleteSale a id).2.db.products = a.db.products) ∧
      (∀ pre p post, a.db.products = pre ++ p :: post →
        (∀ x ∈ pre, x.id ≠ s.productId) → p.id = s.productId →
        (DataManager.deleteSale a id).2.db.products =
          pre ++ { p with qty := p.qty + s.qty } :: post) ∧
      (DataManager.deleteSale a id).2.db.feedback = a.db.feedback ∧
      (DataManager.deleteSale a id).2.db.backups = a.db.backups ∧
      (DataManager.deleteSale a id).2.db.faults = a.db.faults ∧
      (DataManager.deleteSale a id).2.db.users = a.db.users ∧
      (DataManager.deleteSale a id).2.db.meta = a.db.meta ∧
      (DataManager.deleteSale a id).2.db.cloudBackups = a.db.cloudBackups) := by
  constructor
  · intro hnone
    have h : a.db.sales.find? (fun x => decide (x.id = id)) = none :=
      find?_none_of_forall _ _ (fun x hx => by simpa using hnone x hx)
    simp [DataManager.deleteSale, h]
  · intro s hs
    have hsid : s.id = id := by
      obtain ⟨_, _, _, _, h⟩ := find?_split_of_some _ _ _ hs
      simpa using h
    refine ⟨by simp [DataManager.deleteSale, hs], by simp [DataManager.deleteSale, hs], ?_, ?_, ?_,
      by simp [DataManager.deleteSale, hs], by simp [DataManager.deleteSale, hs],
      by simp [DataManager.deleteSale, hs], by simp [DataManager.deleteSale, hs],
      by simp [DataManager.deleteSale, hs], by simp [DataManager.deleteSale, hs]⟩
    · intro spre spost hsplit hpre hpost
      have := filter_ne_of_split (fun x : Sale => decide (x.id = id)) spre spost s
        (fun x hx => by simpa using hpre x hx) (by simpa using hsid)
        (fun x hx => by simpa using hpost x hx)
      have hsales : (DataManager.deleteSale a id).2.db.sales =
          a.db.sales.filter (fun x => decide (x.id ≠ id)) := by
        simp [DataManager.deleteSale, hs]
      rw [hsales, hsplit]
      simpa using this
    · intro hnone
      have h : a.db.products.find? (fun p => decide (p.id = s.productId)) = none :=
        find?_none_of_forall _ _ (fun x hx => by simpa using hnone x hx)
      simp [DataManager.deleteSale, hs, h]
    · intro pre p post hsplit hpre hp
      have hpre' : ∀ x ∈ pre, decide (x.id = s.productId) = false := fun x hx => by
        simpa using hpre x hx
      have hp' : decide (p.id = s.productId) = true := by simpa using hp
      have hfind : a.db.products.find? (fun p => decide (p.id = s.productId)) = some p := by
        rw [hsplit]; exact find?_of_split _ pre post p hpre' hp'
      have hmod : modifyFirst (fun p => decide (p.id = s.productId))
          (fun p => { p with qty := p.qty + s.qty }) a.db.products =
          pre ++ { p with qty := p.qty + s.qty } :: post := by
        rw [hsplit]; exact modifyFirst_of_split _ _ pre post p hpre' hp'
      simp [DataManager.deleteSale, hs, hfind, hmod]

/-- Witness of `deleteSale_spec`: deleting the only sale (id 7, 2 units of A) of
`oneSaleApp` returns `true`, empties the sales and puts A back to 10 units;
deleting an unknown id changes nothing. -/
theorem deleteSale_spec_witness :
    DataManager.deleteSale oneSaleApp 8 = (false, oneSaleApp) ∧
    (DataManager.deleteSale oneSaleApp 7).1 = true ∧
    (DataManager.deleteSale oneSaleApp 7).2.db.sales = [] ∧
    (DataManager.deleteSale oneSaleApp 7).2.db.products = [scenarioProduct] :=
  have h := (deleteSale_spec oneSaleApp 7).2 (Sale.mk 7 1 "A" 2 5 10 "t") (by decide)
  ⟨(deleteSale_spec oneSaleApp 8).1 (by decide), h.1,
    h.2.2.1 [] [] (by decide) (by simp) (by simp),
    h.2.2.2.2.1 [] { scenarioProduct with qty := 8 } [] (by decide) (by simp) (by decide)⟩

/-! ## Stock invariant over sequences of operations -/

theorem stockInv_empty : StockInv App.empty := by
  simp [StockInv, App.empty, DataManager.new, emptyStorage]

theorem stockInv_apply (a : App) (op : Op) (hinv : StockInv a) (hop : op.qtyNonneg = true) :
    StockInv (op.apply a) := by
  obtain ⟨hP, hS, hB⟩ := hinv
  cases op with
  | addProduct now date name category price qty =>
    have hq : 0 ≤ qty := by simpa [Op.qtyNonneg] using hop
    refine ⟨?_, hS, hB⟩
    intro p hp
    rcases List.mem_append.mp hp with h | h
    · exact hP p h
    · have : p = Product.mk now name category price qty date := by simpa using h
      rw [this]; exact hq
  | editProduct id patch =>
    show StockInv (DataManager.editProduct a id patch).2
    unfold DataManager.editProduct
    cases hfind : a.db.products.find? (fun x => decide (x.id = id)) with
    | none => exact ⟨hP, hS, hB⟩
    | some p0 =>
      refine ⟨?_, hS, hB⟩
      intro p hp
      rcases mem_modifyFirst _ _ _ _ hp with h | ⟨x, hx, rfl⟩
      · exact hP p h
      · have hxq : 0 ≤ x.qty := hP x (mem_of_find?_some _ _ _ hx)
        cases hpq : patch.qty with
        | none => simpa [ProductPatch.assign, hpq] using hxq
        | some q =>
          have hq : 0 ≤ q := by simpa [Op.qtyNonneg, hpq] using hop
          simpa [ProductPatch.assign, hpq] using hq
  | deleteProduct id =>
    exact ⟨fun p hp => hP p (List.mem_filter.mp hp).1, hS, hB⟩
  | addSale now date productId qty price =>
    have hq : 0 ≤ qty := by simpa [Op.qtyNonneg] using hop
    show StockInv (DataManager.addSale a now date productId qty price).2
    unfold DataManager.addSale
    cases hfind : a.db.products.find? (fun p => decide (p.id = productId)) with
    | none => exact ⟨hP, hS, hB⟩
    | some product =>
      by_cases hlt : product.qty < qty
      · simp only [hlt, if_true]; exact ⟨hP, hS, hB⟩
      · simp only [hlt, if_false]
        refine ⟨?_, ?_, hB⟩
        · intro p hp
          rcases mem_modifyFirst _ _ _ _ hp with h | ⟨x, hx, rfl⟩
          · exact hP p h
          · have hxp : x = product := by rw [hfind] at hx; exact (Option.some.inj hx).symm
            subst hxp
            show 0 ≤ x.qty - qty
            omega
        · intro s hs
          rcases List.mem_append.mp hs with h | h
          · exact hS s h
          · have : s = Sale.mk now productId product.name qty price (qty * price) date := by
              simpa using h
            rw [this]; exact hq
  | deleteSale id =>
    show StockInv (DataManager.deleteSale a id).2
    unfold DataManager.deleteSale
    cases hfind : a.db.sales.find? (fun s => decide (s.id = id)) with
    | none => exact ⟨hP, hS, hB⟩
    | some sale =>
      have hsq : 0 ≤ sale.qty := hS sale (mem_of_find?_some _ _ _ hfind)
      refine ⟨?_, fun s hs => hS s (List.mem_filter.mp hs).1, hB⟩
      intro p hp
      cases hpf : a.db.products.find? (fun p => decide (p.id = sale.productId)) with
      | none =>
        simp only [save_db, hpf] at hp
        exact hP p hp
      | some p0 =>
        simp only [save_db, hpf] at hp
        rcases mem_modifyFirst _ _ _ _ hp with h | ⟨x, hx, rfl⟩
        · exact hP p h
        · have hxq : 0 ≤ x.qty := hP x (mem_of_find?_some _ _ _ hx)
          show 0 ≤ x.qty + sale.qty
          omega
  | addFeedback now date kind msg => exact ⟨hP, hS, hB⟩
  | addFault now date description image => exact ⟨hP, hS, hB⟩
  | deleteFault id => exact ⟨hP, hS, hB⟩
  | clearFaults => exact ⟨hP, hS, hB⟩
  | addLocalBackup now date =>
    refine ⟨hP, hS, ?_⟩
    intro b hb
    rcases List.mem_append.mp hb with h | h
    · exact hB b h
    · have : b = Backup.mk now date a.db.products a.db.sales a.db.feedback a.db.faults
          a.db.users := by simpa [jsonClone] using h
      rw [this]; exact ⟨hP, hS⟩
  | deleteLocalBackup index =>
    show StockInv (DataManager.deleteLocalBackup a index)
    unfold DataManager.deleteLocalBackup
    split
    · exact ⟨hP, hS, fun b hb => hB b (List.mem_of_mem_eraseIdx hb)⟩
    · exact ⟨hP, hS, hB⟩
  | setMeta key value => exact ⟨hP, hS, hB⟩
  | addUser userObj => exact ⟨hP, hS, hB⟩
  | updateUsers usersArray => exact ⟨hP, hS, hB⟩
  | clearAllData =>
    refine ⟨?_, ?_, ?_⟩ <;> intro x hx <;> simp [Op.apply, DataManager.clearAllData] at hx
  | restoreDataLocal confirmed =>
    show StockInv (Inventory.restoreDataLocal a confirmed)
    unfold Inventory.restoreDataLocal
    cases hlast : DataManager.getLastLocalBackup a with
    | none => exact ⟨hP, hS, hB⟩
    | some lastBackup =>
      have hmem : lastBackup ∈ a.db.backups := List.mem_of_getLast?_eq_some hlast
      cases confirmed with
      | false => exact ⟨hP, hS, hB⟩
      | true => exact ⟨(hB lastBackup hmem).1, (hB lastBackup hmem).2, hB⟩

theorem stockInv_run (ops : List Op) (a : App) (hinv : StockInv a)
    (hops : ∀ op ∈ ops, op.qtyNonneg = true) : StockInv (run a ops) := by
  induction ops generalizing a with
  | nil => exact hinv
  | cons op ops ih =>
    have h1 : StockInv (op.apply a) := stockInv_apply a op hinv (hops op (List.mem_cons_self op ops))
    have h2 := ih (op.apply a) h1 (fun o ho => hops o (List.mem_cons_of_mem op ho))
    simpa [run] using h2

/-- C3 (as stated) fails: `addProduct` records the quantity it is given, so from
the empty ledger one `addProduct` with `qty = -1` reaches a state with a product
of negative `qty`. -/
theorem negative_qty_reachable :
    ¬ ∀ p ∈ (run App.empty [Op.addProduct 1 "1/1/2025" "A" "misc" 5 (-1)]).db.products,
      0 ≤ p.qty := by
  decide

/-- C3 (amended): in every state reached from the empty ledger by a sequence of
ledger operations in which every `addProduct` and `addSale` is given a `qty ≥ 0`
and every `editProduct` patch that defines `qty` gives it a value `≥ 0`, every
product has `qty ≥ 0`. -/
theorem qty_nonneg_of_reachable (ops : List Op) (hops : ∀ op ∈ ops, op.qtyNonneg = true)
    (p : Product) (hp : p ∈ (run App.empty ops).db.products) : 0 ≤ p.qty :=
  (stockInv_run ops App.empty stockInv_empty hops).1 p hp

/-- Witness of `qty_nonneg_of_reachable`: the scenario of the specification
(A created with 10 units, 3 sold, 10 more refused, the sale deleted). -/
theorem qty_nonneg_of_reachable_witness :
    scenarioProduct ∈ (run App.empty [Op.addProduct 1 "1/1/2025" "A" "misc" 5 10,
      Op.addSale 2 "t" 1 3 5, Op.addSale 3 "t" 1 10 5, Op.deleteSale 2]).db.products ∧
    0 ≤ scenarioProduct.qty :=
  ⟨by decide,
    qty_nonneg_of_reachable [Op.addProduct 1 "1/1/2025" "A" "misc" 5 10,
      Op.addSale 2 "t" 1 3 5, Op.addSale 3 "t" 1 10 5, Op.deleteSale 2] (by decide)
      scenarioProduct (by decide)⟩

/-! ## Sale totals over sequences of operations -/

theorem salesAll_apply (P : Sale → Prop) (a : App) (op : Op) (hinv : SalesAll P a)
    (hnew : ∀ (now : Int) (date : String) (productId qty price : Int) (s : Sale),
      op = Op.addSale now date productId qty price →
      (DataManager.addSale a now date productId qty price).1 = true →
      (DataManager.addSale a now date productId qty price).2.db.sales = a.db.sales ++ [s] →
      P s) :
    SalesAll P (op.apply a) := by
  obtain ⟨hS, hB⟩ := hinv
  cases op with
  | addProduct now date name category price qty => exact ⟨hS, hB⟩
  | editProduct id patch =>
    show SalesAll P (DataManager.editProduct a id patch).2
    unfold DataManager.editProduct
    cases a.db.products.find? (fun x => decide (x.id = id)) with
    | none => exact ⟨hS, hB⟩
    | some p0 => exact ⟨hS, hB⟩
  | deleteProduct id => exact ⟨hS, hB⟩
  | addSale now date productId qty price =>
    have hnew' := hnew now date productId qty price
    show SalesAll P (DataManager.addSale a now date productId qty price).2
    unfold DataManager.addSale at hnew' ⊢
    cases hfind : a.db.products.find? (fun p => decide (p.id = productId)) with
    | none => exact ⟨hS, hB⟩
    | some product =>
      by_cases hlt : product.qty < qty
      · simp only [hlt, if_true]; exact ⟨hS, hB⟩
      · simp only [hlt, if_false]
        refine ⟨?_, hB⟩
        intro s hs
        rcases List.mem_append.mp hs with h | h
        · exact hS s h
        · have hrec : s = Sale.mk now productId product.name qty price (qty * price) date := by
            simpa using h
          rw [hrec]
          apply hnew' _ rfl
          · simp [hfind, hlt]
          · simp [hfind, hlt]
  | deleteSale id =>
    show SalesAll P (DataManager.deleteSale a id).2
    unfold DataManager.deleteSale
    cases a.db.sales.find? (fun s => decide (s.id = id)) with
    | none => exact ⟨hS, hB⟩
    | some sale => exact ⟨fun s hs => hS s (List.mem_filter.mp hs).1, hB⟩
  | addFeedback now date kind msg => exact ⟨hS, hB⟩
  | addFault now date description image => exact ⟨hS, hB⟩
  | deleteFault id => exact ⟨hS, hB⟩
  | clearFaults => exact ⟨hS, hB⟩
  | addLocalBackup now date =>
    refine ⟨hS, ?_⟩
    intro b hb
    rcases List.mem_append.mp hb with h | h
    · exact hB b h
    · have : b = Backup.mk now date a.db.products a.db.sales a.db.feedback a.db.faults
          a.db.users := by simpa [jsonClone] using h
      rw [this]; exact hS
  | deleteLocalBackup index =>
    show SalesAll P (DataManager.deleteLocalBackup a index)
    unfold DataManager.deleteLocalBackup
    split
    · exact ⟨hS, fun b hb => hB b (List.mem_of_mem_eraseIdx hb)⟩
    · exact ⟨hS, hB⟩
  | setMeta key value => exact ⟨hS, hB⟩
  | addUser userObj => exact ⟨hS, hB⟩
  | updateUsers usersArray => exact ⟨hS, hB⟩
  | clearAllData =>
    refine ⟨?_, ?_⟩ <;> intro x hx <;> simp [Op.apply, DataManager.clearAllData] at hx
  | restoreDataLocal confirmed =>
    show SalesAll P (Inventory.restoreDataLocal a confirmed)
    unfold Inventory.restoreDataLocal
    cases hlast : DataManager.getLastLocalBackup a with
    | none => exact ⟨hS, hB⟩
    | some lastBackup =>
      have hmem : lastBackup ∈ a.db.backups := List.mem_of_getLast?_eq_some hlast
      cases confirmed with
      | false => exact ⟨hS, hB⟩
      | true => exact ⟨hB lastBackup hmem, hB⟩

theorem run_concat (a : App) (ops : List Op) (op : Op) :
    run a (ops ++ [op]) = op.apply (run a ops) := by
  simp [run, List.foldl_append]

theorem createdBy_concat (ops : List Op) (op : Op) (s : Sale) (h : CreatedBy ops s) :
    CreatedBy (ops ++ [op]) s := by
  obtain ⟨ops1, ops2, now, date, productId, qty, price, hsplit, hok, hsales, hq, hp, ht⟩ := h
  exact ⟨ops1, ops2 ++ [op], now, date, productId, qty, price, by simp [hsplit], hok, hsales,
    hq, hp, ht⟩

theorem addSale_new_sale (a : App) (now : Int) (date : String) (productId qty price : Int)
    (s : Sale) (hok : (DataManager.addSale a now date productId qty price).1 = true)
    (hsales : (DataManager.addSale a now date productId qty price).2.db.sales =
      a.db.sales ++ [s]) :
    s.qty = qty ∧ s.price = price ∧ s.total = qty * price := by
  unfold DataManager.addSale at hok hsales
  cases hfind : a.db.products.find? (fun p => decide (p.id = productId)) with
  | none => simp [hfind] at hok
  | some product =>
    by_cases hlt : product.qty < qty
    · simp [hfind, hlt] at hok
    · simp only [hfind, hlt, if_false, save_db] at hsales
      have h := List.append_cancel_left hsales
      have hs : Sale.mk now productId product.name qty price (qty * price) date = s := by
        simpa using h
      rw [← hs]
      exact ⟨rfl, rfl, rfl⟩

theorem createdBy_reachable (ops : List Op) :
    SalesAll (CreatedBy ops) (run App.empty ops) := by
  induction ops using List.reverseRecOn with
  | nil =>
    constructor
    · intro s hs
      simp [run, App.empty, DataManager.new, emptyStorage] at hs
    · intro b hb
      simp [run, App.empty, DataManager.new, emptyStorage] at hb
  | append_singleton ops op ih =>
    rw [run_concat]
    have hlift : SalesAll (CreatedBy (ops ++ [op])) (run App.empty ops) :=
      ⟨fun s hs => createdBy_concat ops op s (ih.1 s hs),
        fun b hb s hs => createdBy_concat ops op s (ih.2 b hb s hs)⟩
    apply salesAll_apply _ _ _ hlift
    intro now date productId qty price s hop hok hsales
    obtain ⟨hq, hp, ht⟩ := addSale_new_sale _ now date productId qty price s hok hsales
    exact ⟨ops, [], now, date, productId, qty, price, by rw [hop], hok, hsales, hq, hp, ht⟩

/-- C7: in every state reached from the empty ledger by any sequence of ledger
operations (product edits and deletions, sales, sale deletions, backups,
local restores, resets, with arbitrary arguments), every sale `s` of `sales`
has `total = qty * price`, and its `qty` and `price` are the values given when
the sale was created: the sequence contains an `addSale(productId, qty, price)`
call that returned `true` and appended exactly `s`, with `s.qty = qty`,
`s.price = price` and `s.total = qty * price`. -/
theorem sale_total_of_reachable (ops : List Op) (s : Sale)
    (hs : s ∈ (run App.empty ops).db.sales) :
    s.total = s.qty * s.price ∧
    ∃ (ops1 ops2 : List Op) (now : Int) (date : String) (productId qty price : Int),
      ops = ops1 ++ Op.addSale now date productId qty price :: ops2 ∧
      (DataManager.addSale (run App.empty ops1) now date productId qty price).1 = true ∧
      (DataManager.addSale (run App.empty ops1) now date productId qty price).2.db.sales =
        (run App.empty ops1).db.sales ++ [s] ∧
      s.qty = qty ∧ s.price = price ∧ s.total = qty * price := by
  have h := (createdBy_reachable ops).1 s hs
  refine ⟨?_, h⟩
  obtain ⟨_, _, _, _, _, qty, price, _, _, _, hq, hp, ht⟩ := h
  rw [ht, hq, hp]

/-- Witness of `sale_total_of_reachable`: the sale of 3 units at price 5 is
still recorded with total 15, quantity 3 and price 5 after the product is
re-priced, renamed and then deleted, a backup is taken and restored. -/
theorem sale_total_of_reachable_witness :
    Sale.mk 2 1 "A" 3 5 15 "t" ∈ (run App.empty [Op.addProduct 1 "1/1/2025" "A" "misc" 5 10,
      Op.addSale 2 "t" 1 3 5,
      Op.editProduct 1 (ProductPatch.mk none (some "B") none (some 9) none none),
      Op.addLocalBackup 4 "t", Op.deleteProduct 1, Op.restoreDataLocal true]).db.sales ∧
    (Sale.mk 2 1 "A" 3 5 15 "t").total =
      (Sale.mk 2 1 "A" 3 5 15 "t").qty * (Sale.mk 2 1 "A" 3 5 15 "t").price ∧
    CreatedBy [Op.addProduct 1 "1/1/2025" "A" "misc" 5 10,
      Op.addSale 2 "t" 1 3 5,
      Op.editProduct 1 (ProductPatch.mk none (some "B") none (some 9) none none),
      Op.addLocalBackup 4 "t", Op.deleteProduct 1, Op.restoreDataLocal true]
      (Sale.mk 2 1 "A" 3 5 15 "t") :=
  ⟨by decide,
    (sale_total_of_reachable [Op.addProduct 1 "1/1/2025" "A" "misc" 5 10,
      Op.addSale 2 "t" 1 3 5,
      Op.editProduct 1 (ProductPatch.mk none (some "B") none (some 9) none none),
      Op.addLocalBackup 4 "t", Op.deleteProduct 1, Op.restoreDataLocal true]
      (Sale.mk 2 1 "A" 3 5 15 "t") (by decide)).1,
    (sale_total_of_reachable [Op.addProduct 1 "1/1/2025" "A" "misc" 5 10,
      Op.addSale 2 "t" 1 3 5,
      Op.editProduct 1 (ProductPatch.mk none (some "B") none (some 9) none none),
      Op.addLocalBackup 4 "t", Op.deleteProduct 1, Op.restoreDataLocal true]
      (Sale.mk 2 1 "A" 3 5 15 "t") (by decide)).2⟩

/-! ## Local backups -/

/-- C8: taking a local backup and restoring the last local backup (dialog
confirmed) with nothing in between gives back the products, sales, feedback,
faults and users of the state in which the backup was taken. -/
theorem restore_addLocalBackup (a : App) (now : Int) (date : String) :
    (restoreDataLocal (DataManager.addLocalBackup a now date).2 true).db.products
      = a.db.products ∧
    (restoreDataLocal (DataManager.addLocalBackup a now date).2 true).db.sales = a.db.sales ∧
    (restoreDataLocal (DataManager.addLocalBackup a now date).2 true).db.feedback
      = a.db.feedback ∧
    (restoreDataLocal (DataManager.addLocalBackup a now date).2 true).db.faults = a.db.faults ∧
    (restoreDataLocal (DataManager.addLocalBackup a now date).2 true).db.users = a.db.users := by
  simp [restoreDataLocal, DataManager.getLastLocalBackup, DataManager.addLocalBackup, jsonClone]

theorem backups_apply_extends (a : App) (op : Op) (hop : op.isLedgerMutation = true) :
    ∃ extra, (op.apply a).db.backups = a.db.backups ++ extra := by
  cases op with
  | addProduct now date name category price qty => exact ⟨[], by simp [Op.apply, DataManager.addProduct]⟩
  | editProduct id patch =>
    refine ⟨[], ?_⟩
    show (DataManager.editProduct a id patch).2.db.backups = a.db.backups ++ []
    unfold DataManager.editProduct
    cases a.db.products.find? (fun x => decide (x.id = id)) <;> simp
  | deleteProduct id => exact ⟨[], by simp [Op.apply, DataManager.deleteProduct]⟩
  | addSale now date productId qty price =>
    refine ⟨[], ?_⟩
    show (DataManager.addSale a now date productId qty price).2.db.backups = a.db.backups ++ []
    unfold DataManager.addSale
    cases a.db.products.find? (fun p => decide (p.id = productId)) with
    | none => simp
    | some product => by_cases hlt : product.qty < qty <;> simp [hlt]
  | deleteSale id =>
    refine ⟨[], ?_⟩
    show (DataManager.deleteSale a id).2.db.backups = a.db.backups ++ []
    unfold DataManager.deleteSale
    cases a.db.sales.find? (fun s => decide (s.id = id)) <;> simp
  | addFeedback now date kind msg => exact ⟨[], by simp [Op.apply, DataManager.addFeedback]⟩
  | addFault now date description image => exact ⟨[], by simp [Op.apply, DataManager.addFault]⟩
  | deleteFault id => exact ⟨[], by simp [Op.apply, DataManager.deleteFault]⟩
  | clearFaults => exact ⟨[], by simp [Op.apply, DataManager.clearFaults]⟩
  | addLocalBackup now date =>
    exact ⟨[(DataManager.addLocalBackup a now date).1], by simp [Op.apply, DataManager.addLocalBackup]⟩
  | deleteLocalBackup index => simp [Op.isLedgerMutation] at hop
  | setMeta key value => exact ⟨[], by simp [Op.apply, DataManager.setMeta]⟩
  | addUser userObj => exact ⟨[], by simp [Op.apply, DataManager.addUser]⟩
  | updateUsers usersArray => exact ⟨[], by simp [Op.apply, DataManager.updateUsers]⟩
  | clearAllData => simp [Op.isLedgerMutation] at hop
  | restoreDataLocal confirmed =>
    refine ⟨[], ?_⟩
    show (Inventory.restoreDataLocal a confirmed).db.backups = a.db.backups ++ []
    unfold Inventory.restoreDataLocal
    cases DataManager.getLastLocalBackup a with
    | none => simp
    | some lastBackup => cases confirmed <;> simp

theorem backups_run_extends (ops : List Op) (a : App)
    (hops : ∀ op ∈ ops, op.isLedgerMutation = true) :
    ∃ extra, (run a ops).db.backups = a.db.backups ++ extra := by
  induction ops generalizing a with
  | nil => exact ⟨[], by simp [run]⟩
  | cons op ops ih =>
    obtain ⟨e1, h1⟩ := backups_apply_extends a op (hops op (List.mem_cons_self op ops))
    obtain ⟨e2, h2⟩ := ih (op.apply a) (fun o ho => hops o (List.mem_cons_of_mem op ho))
    refine ⟨e1 ++ e2, ?_⟩
    have : run a (op :: ops) = run (op.apply a) ops := by simp [run]
    rw [this, h2, h1, List.append_assoc]

/-- C9: the backup `b` returned by `addLocalBackup` holds the id, date and the
five collections of the moment of capture, and after any later sequence of
operations that mutate live data, take further backups or restore the last
local backup (`addProduct`, `editProduct`, `deleteProduct`, `addSale`,
`deleteSale`, `addFeedback`, `addFault`, `deleteFault`, `clearFaults`, `setMeta`,
`addUser`, `updateUsers`, `addLocalBackup`, `restoreDataLocal`), the entry of the
backup history at the position where `b` was appended is still `b`. -/
theorem backup_immutable (a : App) (now : Int) (date : String) (ops : List Op)
    (hops : ∀ op ∈ ops, op.isLedgerMutation = true) :
    (DataManager.addLocalBackup a now date).1 =
      Backup.mk now date a.db.products a.db.sales a.db.feedback a.db.faults a.db.users ∧
    (run (DataManager.addLocalBackup a now date).2 ops).db.backups[a.db.backups.length]? =
      some (DataManager.addLocalBackup a now date).1 := by
  refine ⟨rfl, ?_⟩
  obtain ⟨extra, h⟩ := backups_run_extends ops (DataManager.addLocalBackup a now date).2 hops
  rw [h]
  show (a.db.backups ++ [(DataManager.addLocalBackup a now date).1] ++ extra)[a.db.backups.length]?
    = some (DataManager.addLocalBackup a now date).1
  rw [List.append_assoc, List.getElem?_append_right (le_refl _)]
  simp

/-- Witness of `backup_immutable`: a backup of the ledger holding product A with
10 units still records 10 units after a sale, an edit, a deletion, a second
backup and a restore. -/
theorem backup_immutable_witness :
    (run (DataManager.addLocalBackup scenarioApp 4 "t").2
      [Op.addSale 5 "t" 1 3 5,
       Op.editProduct 1 (ProductPatch.mk none (some "B") none none (some 0) none),
       Op.deleteProduct 1, Op.addLocalBackup 6 "t", Op.restoreDataLocal true]).db.backups[0]? =
      some (Backup.mk 4 "t" [scenarioProduct] [] [] [] []) :=
  (backup_immutable scenarioApp 4 "t"
      [Op.addSale 5 "t" 1 3 5,
       Op.editProduct 1 (ProductPatch.mk none (some "B") none none (some 0) none),
       Op.deleteProduct 1, Op.addLocalBackup 6 "t", Op.restoreDataLocal true] (by decide)).2

/-! ## Reset -/

/-- C10: after `clearAllData` the collections products, sales, feedback, faults
and backups are empty, and users and meta (and the cloud-backup references)
are exactly what they were. -/
theorem clearAllData_spec (a : App) :
    (DataManager.clearAllData a).db.products = [] ∧
    (DataManager.clearAllData a).db.sales = [] ∧
    (DataManager.clearAllData a).db.feedback = [] ∧
    (DataManager.clearAllData a).db.faults = [] ∧
    (DataManager.clearAllData a).db.backups = [] ∧
    (DataManager.clearAllData a).db.users = a.db.users ∧
    (DataManager.clearAllData a).db.meta = a.db.meta ∧
    (DataManager.clearAllData a).db.cloudBackups = a.db.cloudBackups :=
  ⟨rfl, rfl, rfl, rfl, rfl, rfl, rfl, rfl⟩

/-! ## Stock conservation -/

theorem soldQty_append (xs ys : List Sale) (pid : Int) :
    soldQty (xs ++ ys) pid = soldQty xs pid + soldQty ys pid := by
  simp [soldQty, List.filter_append, List.map_append, List.sum_append]

theorem soldQty_cons (s : Sale) (xs : List Sale) (pid : Int) :
    soldQty (s :: xs) pid = (if pid = s.productId then s.qty else 0) + soldQty xs pid := by
  by_cases h : s.productId = pid
  · simp [soldQty, List.filter_cons, h]
  · have h' : ¬ pid = s.productId := fun e => h e.symm
    simp [soldQty, List.filter_cons, h, h']

theorem soldQty_nil (pid : Int) : soldQty [] pid = 0 := by
  simp [soldQty]

theorem ne_of_nodup_split {α β : Type} (f : α → β) (pre post : List α) (p : α)
    (h : ((pre ++ p :: post).map f).Nodup) :
    (∀ x ∈ pre, f x ≠ f p) ∧ (∀ x ∈ post, f x ≠ f p) := by
  rw [List.map_append, List.map_cons, List.nodup_append] at h
  obtain ⟨_, hcons, hdisj⟩ := h
  constructor
  · intro x hx e
    exact hdisj (List.mem_map.mpr ⟨x, hx, rfl⟩) (by rw [e]; exact List.mem_cons_self _ _)
  · intro x hx e
    have hnot : f p ∉ post.map f := (List.nodup_cons.mp hcons).1
    exact hnot (by rw [← e]; exact List.mem_map.mpr ⟨x, hx, rfl⟩)

theorem stock_frame (products : List Product) (sales sales' : List Sale) (pid δ : Int)
    (hne : ∀ x ∈ products, x.id ≠ pid)
    (hs : ∀ k, soldQty sales' k = soldQty sales k + (if k = pid then δ else 0)) :
    products.map (fun p => (p.id, stockTotal sales' p)) =
      products.map (fun p => (p.id, stockTotal sales p)) := by
  apply List.map_congr_left
  intro x hx
  have := hne x hx
  simp [stockTotal, hs, this]

theorem stock_modify (pre post : List Product) (p p' : Product) (sales sales' : List Sale)
    (pid δ : Int) (hpre : ∀ x ∈ pre, x.id ≠ pid) (hpost : ∀ x ∈ post, x.id ≠ pid)
    (hp : p.id = pid) (hp' : p'.id = pid) (hq : p'.qty = p.qty - δ)
    (hs : ∀ k, soldQty sales' k = soldQty sales k + (if k = pid then δ else 0)) :
    (pre ++ p' :: post).map (fun p => (p.id, stockTotal sales' p)) =
      (pre ++ p :: post).map (fun p => (p.id, stockTotal sales p)) := by
  rw [List.map_append, List.map_append, List.map_cons, List.map_cons,
    stock_frame pre sales sales' pid δ hpre hs, stock_frame post sales sales' pid δ hpost hs]
  have : stockTotal sales' p' = stockTotal sales p := by
    simp only [stockTotal, hs, hp, hp', hq, if_true]
    omega
  rw [this, hp, hp']

/-- C6 (as stated) fails when two products share an id: in `twinApp` (A and B
both with id 1 and 5 units) a sale of 2 units of id 1 takes the units from A,
while the new sale also counts for B, whose `qty` plus sold quantity goes from
5 to 7. -/
theorem stock_not_conserved_twin :
    stockView twinApp = [(1, 5), (1, 5)] ∧
    stockView (DataManager.addSale twinApp 2 "t" 1 2 5).2 = [(1, 5), (1, 7)] ∧
    stockView (DataManager.addSale twinApp 2 "t" 1 2 5).2 ≠ stockView twinApp := by
  decide

/-- C6 (amended): in a ledger whose products have pairwise distinct ids, every
`addSale` call, accepted or refused, leaves the list of product ids and each
product's `qty` plus the `qty` of the live sales referring to it unchanged; if
moreover the sales have pairwise distinct ids, so does every `deleteSale`
call. -/
theorem stock_conserved (a : App) (hprod : (a.db.products.map (fun p => p.id)).Nodup) :
    (∀ (now : Int) (date : String) (productId qty price : Int),
      stockView (DataManager.addSale a now date productId qty price).2 = stockView a) ∧
    ((a.db.sales.map (fun s => s.id)).Nodup →
      ∀ id : Int, stockView (DataManager.deleteSale a id).2 = stockView a) := by
  constructor
  · intro now date productId qty price
    unfold DataManager.addSale
    cases hfind : a.db.products.find? (fun p => decide (p.id = productId)) with
    | none => rfl
    | some p =>
      by_cases hlt : p.qty < qty
      · simp only [hlt, if_true]
      · simp only [hlt, if_false]
        obtain ⟨pre, post, hsplit, hpre, hp⟩ := find?_split_of_some _ _ _ hfind
        have hpid : p.id = productId := by simpa using hp
        rw [hsplit] at hprod
        obtain ⟨_, hpost⟩ := ne_of_nodup_split (fun p : Product => p.id) pre post p hprod
        have hmod : modifyFirst (fun p => decide (p.id = productId))
            (fun p => { p with qty := p.qty - qty }) a.db.products =
            pre ++ { p with qty := p.qty - qty } :: post := by
          rw [hsplit]; exact modifyFirst_of_split _ _ pre post p hpre hp
        simp only [stockView, save_db, hmod]
        rw [hsplit]
        refine stock_modify pre post p _ a.db.sales _ productId qty
          (fun x hx => by simpa using hpre x hx) (fun x hx => by rw [← hpid]; exact hpost x hx)
          hpid hpid rfl ?_
        intro k
        rw [soldQty_append, soldQty_cons, soldQty_nil]
        simp
  · intro hsales id
    unfold DataManager.deleteSale
    cases hfind : a.db.sales.find? (fun s => decide (s.id = id)) with
    | none => rfl
    | some s =>
      obtain ⟨spre, spost, hssplit, hspre, hs⟩ := find?_split_of_some _ _ _ hfind
      have hsid : s.id = id := by simpa using hs
      rw [hssplit] at hsales
      obtain ⟨_, hspost⟩ := ne_of_nodup_split (fun s : Sale => s.id) spre spost s hsales
      have hfilter : a.db.sales.filter (fun s => decide (s.id ≠ id)) = spre ++ spost := by
        have := filter_ne_of_split (fun x : Sale => decide (x.id = id)) spre spost s hspre hs
          (fun x hx => by simpa [hsid] using hspost x hx)
        rw [hssplit]
        simpa using this
      have hsold : ∀ k, soldQty (spre ++ spost) k =
          soldQty a.db.sales k + (if k = s.productId then -s.qty else 0) := by
        intro k
        rw [hssplit, soldQty_append, soldQty_append, soldQty_cons]
        by_cases hk : k = s.productId
        · simp [hk]; omega
        · simp [hk]
      cases hpf : a.db.products.find? (fun p => decide (p.id = s.productId)) with
      | none =>
        simp only [stockView, save_db, hfilter, hpf]
        refine stock_frame a.db.products a.db.sales _ s.productId (-s.qty) ?_ hsold
        intro x hx
        simpa using List.find?_eq_none.mp hpf x hx
      | some p =>
        obtain ⟨pre, post, hsplit, hpre, hp⟩ := find?_split_of_some _ _ _ hpf
        have hpid : p.id = s.productId := by simpa using hp
        rw [hsplit] at hprod
        obtain ⟨_, hpost⟩ := ne_of_nodup_split (fun p : Product => p.id) pre post p hprod
        have hmod : modifyFirst (fun p => decide (p.id = s.productId))
            (fun p => { p with qty := p.qty + s.qty }) a.db.products =
            pre ++ { p with qty := p.qty + s.qty } :: post := by
          rw [hsplit]; exact modifyFirst_of_split _ _ pre post p hpre hp
        simp only [stockView, save_db, hpf, hmod, hfilter]
        rw [hsplit]
        refine stock_modify pre post p _ a.db.sales _ s.productId (-s.qty)
          (fun x hx => by simpa using hpre x hx) (fun x hx => by rw [← hpid]; exact hpost x hx)
          hpid hpid ?_ hsold
        show p.qty + s.qty = p.qty - -s.qty
        omega

/-- Witness of `stock_conserved`: in `oneSaleApp` (A with 8 units and one sale
of 2) the conserved quantity of A is 10 before and after a further sale of 3,
and before and after the deletion of sale 7. -/
theorem stock_conserved_witness :
    (oneSaleApp.db.products.map (fun p => p.id)).Nodup ∧
    (oneSaleApp.db.sales.map (fun s => s.id)).Nodup ∧
    stockView oneSaleApp = [(1, 10)] ∧
    stockView (DataManager.addSale oneSaleApp 9 "t" 1 3 5).2 = stockView oneSaleApp ∧
    stockView (DataManager.deleteSale oneSaleApp 7).2 = stockView oneSaleApp :=
  ⟨by decide, by decide, by decide,
    (stock_conserved oneSaleApp (by decide)).1 9 "t" 1 3 5,
    (stock_conserved oneSaleApp (by decide)).2 (by decide) 7⟩

/-! ## Queries: total of sales and low stock -/

theorem foldl_orZero_total (sales : List Sale) (init : Int) :
    sales.foldl (fun sum s => sum + orZero s.total) init =
      init + (sales.map (fun s => s.total)).sum := by
  induction sales generalizing init with
  | nil => simp
  | cons s sales ih =>
    have h : orZero s.total = s.total := by
      unfold orZero
      split
      · next h0 => exact h0.symm
      · rfl
    simp only [List.foldl_cons, List.map_cons, List.sum_cons, ih, h]
    omega

/-- C13: `getTotalSales` returns the sum of the `total` field over the sales
currently in `sales`, which is 0 for an empty list; the method only reads the
ledger (the model gives it no state result). -/
theorem getTotalSales_spec (a : App) :
    DataManager.getTotalSales a = (a.db.sales.map (fun s => s.total)).sum ∧
    (a.db.sales = [] → DataManager.getTotalSales a = 0) := by
  have h : DataManager.getTotalSales a = (a.db.sales.map (fun s => s.total)).sum := by
    simp [DataManager.getTotalSales, foldl_orZero_total]
  refine ⟨h, fun hnil => ?_⟩
  rw [h, hnil]
  rfl

/-- Witness of `getTotalSales_spec`: two sales of total 5 each add up to 10, and
the empty ledger has total 0. -/
theorem getTotalSales_spec_witness :
    DataManager.getTotalSales tieApp = 10 ∧ DataManager.getTotalSales App.empty = 0 :=
  ⟨(getTotalSales_spec tieApp).1.trans (by decide), (getTotalSales_spec App.empty).2 (by decide)⟩

/-- C14: `getLowStockProducts(t)` returns the products with `qty < t` and no
other: the result is a sublist of `products` (stored order, nothing repeated),
a product belongs to it exactly when it is a product with `qty < t`, every such
product occurs in it as many times as in `products`, and without an argument
the threshold is 10. -/
theorem getLowStockProducts_spec (a : App) (t : Int) :
    (DataManager.getLowStockProducts a (some t)).Sublist a.db.products ∧
    (∀ p, p ∈ DataManager.getLowStockProducts a (some t) ↔ p ∈ a.db.products ∧ p.qty < t) ∧
    (∀ p, p.qty < t →
      (DataManager.getLowStockProducts a (some t)).count p = a.db.products.count p) ∧
    (∀ p ∈ a.db.products, t ≤ p.qty → p ∉ DataManager.getLowStockProducts a (some t)) ∧
    DataManager.getLowStockProducts a none = DataManager.getLowStockProducts a (some 10) := by
  refine ⟨List.filter_sublist _, ?_, ?_, ?_, rfl⟩
  · intro p
    simp [DataManager.getLowStockProducts]
  · intro p hp
    exact List.count_filter (by simpa using hp)
  · intro p _ hge hmem
    have : p.qty < t := by simpa [DataManager.getLowStockProducts] using (List.mem_filter.mp hmem).2
    omega

/-- Witness of `getLowStockProducts_spec`: with 8 units left, product A is low
stock for the default threshold 10 and is not for the threshold 8. -/
theorem getLowStockProducts_spec_witness :
    DataManager.getLowStockProducts oneSaleApp none = oneSaleApp.db.products ∧
    DataManager.getLowStockProducts oneSaleApp (some 8) = [] ∧
    (∀ p ∈ oneSaleApp.db.products, 8 ≤ p.qty →
      p ∉ DataManager.getLowStockProducts oneSaleApp (some 8)) :=
  ⟨by decide, by decide, (getLowStockProducts_spec oneSaleApp 8).2.2.2.1⟩

/-! ## `editProduct` -/

/-- C15: if no product has the id, `editProduct` returns `false` and changes
nothing.  Otherwise, with `p` the product found by the id, it returns `true`,
`p` is replaced by a product that has the patch's value in every field the
patch defines and `p`'s value in every other field, every other product is as
before, and so are the sales and the other collections. -/
theorem editProduct_spec (a : App) (id : Int) (patch : ProductPatch) :
    ((∀ p ∈ a.db.products, p.id ≠ id) → DataManager.editProduct a id patch = (false, a)) ∧
    (∀ pre p post, a.db.products = pre ++ p :: post → (∀ x ∈ pre, x.id ≠ id) → p.id = id →
      (DataManager.editProduct a id patch).1 = true ∧
      (∃ p', (DataManager.editProduct a id patch).2.db.products = pre ++ p' :: post ∧
        p'.id = patch.id.getD p.id ∧ p'.name = patch.name.getD p.name ∧
        p'.category = patch.category.getD p.category ∧ p'.price = patch.price.getD p.price ∧
        p'.qty = patch.qty.getD p.qty ∧ p'.dateAdded = patch.dateAdded.getD p.dateAdded) ∧
      (DataManager.editProduct a id patch).2.db.sales = a.db.sales ∧
      (DataManager.editProduct a id patch).2.db.feedback = a.db.feedback ∧
      (DataManager.editProduct a id patch).2.db.backups = a.db.backups ∧
      (DataManager.editProduct a id patch).2.db.faults = a.db.faults ∧
      (DataManager.editProduct a id patch).2.db.users = a.db.users ∧
      (DataManager.editProduct a id patch).2.db.meta = a.db.meta ∧
      (DataManager.editProduct a id patch).2.db.cloudBackups = a.db.cloudBackups) := by
  constructor
  · intro hnone
    have h : a.db.products.find? (fun x => decide (x.id = id)) = none :=
      find?_none_of_forall _ _ (fun x hx => by simpa using hnone x hx)
    simp [DataManager.editProduct, h]
  · intro pre p post hsplit hpre hp
    have hpre' : ∀ x ∈ pre, decide (x.id = id) = false := fun x hx => by simpa using hpre x hx
    have hp' : decide (p.id = id) = true := by simpa using hp
    have hfind : a.db.products.find? (fun x => decide (x.id = id)) = some p := by
      rw [hsplit]; exact find?_of_split _ pre post p hpre' hp'
    have hmod : modifyFirst (fun x => decide (x.id = id)) patch.assign a.db.products =
        pre ++ patch.assign p :: post := by
      rw [hsplit]; exact modifyFirst_of_split _ _ pre post p hpre' hp'
    refine ⟨by simp [DataManager.editProduct, hfind], ⟨patch.assign p, ?_, rfl, rfl, rfl, rfl, rfl,
      rfl⟩, ?_, ?_, ?_, ?_, ?_, ?_, ?_⟩ <;> simp [DataManager.editProduct, hfind, hmod]

/-- Witness of `editProduct_spec`: renaming product A and setting its price
keeps its id, category, quantity and date; an unknown id changes nothing. -/
theorem editProduct_spec_witness :
    DataManager.editProduct scenarioApp 2 (ProductPatch.mk none (some "B") none (some 9) none none)
      = (false, scenarioApp) ∧
    (DataManager.editProduct scenarioApp 1
      (ProductPatch.mk none (some "B") none (some 9) none none)).1 = true ∧
    (DataManager.editProduct scenarioApp 1
      (ProductPatch.mk none (some "B") none (some 9) none none)).2.db.products =
      [Product.mk 1 "B" "misc" 9 10 "1/1/2025"] :=
  ⟨(editProduct_spec scenarioApp 2 (ProductPatch.mk none (some "B") none (some 9) none none)).1
      (by decide),
    ((editProduct_spec scenarioApp 1 (ProductPatch.mk none (some "B") none (some 9) none none)).2
      [] scenarioProduct [] rfl (by simp) rfl).1,
    by decide⟩

/-! ## `deleteLocalBackup` -/

/-- C16: for an integer `index` with `0 ≤ index < length`, `deleteLocalBackup`
removes exactly the entry at that position of the backup history (the entries
before it and after it stay, in order) and changes no other collection; for
every other index the whole state is unchanged.  The function is total: no
index raises an error. -/
theorem deleteLocalBackup_spec (a : App) (index : Int) :
    (0 ≤ index → index < (a.db.backups.length : Int) →
      (DataManager.deleteLocalBackup a index).db.backups =
        a.db.backups.take index.toNat ++ a.db.backups.drop (index.toNat + 1) ∧
      (DataManager.deleteLocalBackup a index).db.backups.length + 1 = a.db.backups.length ∧
      (DataManager.deleteLocalBackup a index).db.products = a.db.products ∧
      (DataManager.deleteLocalBackup a index).db.sales = a.db.sales ∧
      (DataManager.deleteLocalBackup a index).db.feedback = a.db.feedback ∧
      (DataManager.deleteLocalBackup a index).db.faults = a.db.faults ∧
      (DataManager.deleteLocalBackup a index).db.users = a.db.users ∧
      (DataManager.deleteLocalBackup a index).db.meta = a.db.meta ∧
      (DataManager.deleteLocalBackup a index).db.cloudBackups = a.db.cloudBackups) ∧
    ((index < 0 ∨ (a.db.backups.length : Int) ≤ index) →
      DataManager.deleteLocalBackup a index = a) := by
  constructor
  · intro h0 hlt
    have hcond : 0 ≤ index ∧ index < (a.db.backups.length : Int) := ⟨h0, hlt⟩
    have hnat : index.toNat < a.db.backups.length := by omega
    refine ⟨?_, ?_, ?_, ?_, ?_, ?_, ?_, ?_, ?_⟩ <;>
      simp only [DataManager.deleteLocalBackup, hcond, and_self, if_true, save_db]
    · exact List.eraseIdx_eq_take_drop_succ _ _
    · rw [List.length_eraseIdx, if_pos hnat]
      omega
  · intro hout
    have hcond : ¬ (0 ≤ index ∧ index < (a.db.backups.length : Int)) := by omega
    simp [DataManager.deleteLocalBackup, hcond]

/-- Witness of `deleteLocalBackup_spec`: deleting index 0 of a history of two
backups leaves the second one; indices 2 and -1 leave the state as it is. -/
theorem deleteLocalBackup_spec_witness :
    (DataManager.deleteLocalBackup twoBackupsApp 0).db.backups =
      twoBackupsApp.db.backups.drop 1 ∧
    (DataManager.deleteLocalBackup twoBackupsApp 0).db.backups.length = 1 ∧
    DataManager.deleteLocalBackup twoBackupsApp 2 = twoBackupsApp ∧
    DataManager.deleteLocalBackup twoBackupsApp (-1) = twoBackupsApp :=
  ⟨((deleteLocalBackup_spec twoBackupsApp 0).1 (by decide) (by decide)).1,
    by decide,
    (deleteLocalBackup_spec twoBackupsApp 2).2 (Or.inr (by decide)),
    (deleteLocalBackup_spec twoBackupsApp (-1)).2 (Or.inl (by decide))⟩

/-! ## `getTopProduct` -/

theorem orZero_eq (x : Int) : orZero x = x := by
  unfold orZero
  split
  · next h0 => exact h0.symm
  · rfl

theorem plainGet_plainAdd (counts : List (String × Int)) (k : String) (q : Int) (n : String) :
    plainGet (plainAdd counts k q) n = plainGet counts n + (if k = n then q else 0) := by
  induction counts with
  | nil => simp [plainAdd, plainGet, orZero_eq]
  | cons kv rest ih =>
    obtain ⟨key, v⟩ := kv
    by_cases hk : key = k
    · subst hk
      by_cases hn : key = n
      · simp [plainAdd, plainGet, orZero_eq, hn]
      · simp [plainAdd, plainGet, orZero_eq, hn]
    · by_cases hn : key = n
      · subst hn
        have hkn : ¬ k = key := fun e => hk e.symm
        simp [plainAdd, plainGet, hk, hkn]
      · simp [plainAdd, plainGet, hk, hn, ih]

theorem keys_plainAdd (counts : List (String × Int)) (k : String) (q : Int) :
    (plainAdd counts k q).map Prod.fst =
      if k ∈ counts.map Prod.fst then counts.map Prod.fst else counts.map Prod.fst ++ [k] := by
  induction counts with
  | nil => simp [plainAdd]
  | cons kv rest ih =>
    obtain ⟨key, v⟩ := kv
    by_cases hk : key = k
    · subst hk
      simp [plainAdd]
    · have hk' : ¬ k = key := fun e => hk e.symm
      by_cases hmem : k ∈ rest.map Prod.fst
      · simp only [plainAdd, hk, if_false, List.map_cons, ih, if_pos hmem, List.mem_cons,
          hmem, or_true, if_true]
      · simp only [plainAdd, hk, if_false, List.map_cons, ih, if_neg hmem, List.mem_cons,
          hmem, hk', or_self, List.cons_append]

theorem cumQty_cons (s : Sale) (sales : List Sale) (n : String) :
    cumQty (s :: sales) n = (if s.productName = n then s.qty else 0) + cumQty sales n := by
  by_cases h : s.productName = n
  · simp [cumQty, List.filter_cons, h]
  · simp [cumQty, List.filter_cons, h]

theorem plainGet_foldl (sales : List Sale) (c0 : List (String × Int)) (n : String) :
    plainGet (sales.foldl (fun counts s => plainAdd counts s.productName s.qty) c0) n =
      plainGet c0 n + cumQty sales n := by
  induction sales generalizing c0 with
  | nil => simp [cumQty]
  | cons s sales ih =>
    rw [List.foldl_cons, ih, plainGet_plainAdd, cumQty_cons]
    omega

theorem mem_firstSeen (l : List String) (y : String) : y ∈ firstSeen l ↔ y ∈ l := by
  induction l with
  | nil => simp [firstSeen]
  | cons x xs ih =>
    simp only [firstSeen, List.mem_cons, List.mem_filter, ih, decide_eq_true_eq]
    constructor
    · rintro (h | ⟨h, _⟩)
      · exact Or.inl h
      · exact Or.inr h
    · intro h
      by_cases hyx : y = x
      · exact Or.inl hyx
      · rcases h with h | h
        · exact Or.inl h
        · exact Or.inr ⟨h, hyx⟩

theorem keys_foldl (sales : List Sale) (c0 : List (String × Int)) :
    (sales.foldl (fun counts s => plainAdd counts s.productName s.qty) c0).map Prod.fst =
      c0.map Prod.fst ++
        (firstSeen (sales.map (fun s => s.productName))).filter
          (fun y => decide (y ∉ c0.map Prod.fst)) := by
  induction sales generalizing c0 with
  | nil => simp [firstSeen]
  | cons s sales ih =>
    rw [List.foldl_cons, ih, keys_plainAdd]
    simp only [List.map_cons, firstSeen]
    by_cases hmem : s.productName ∈ c0.map Prod.fst
    · rw [if_pos hmem, List.filter_cons]
      have h1 : decide (s.productName ∉ c0.map Prod.fst) = false := by simpa using hmem
      rw [h1]
      simp only [Bool.false_eq_true, if_false, List.filter_filter]
      congr 1
      apply List.filter_congr
      intro y _
      by_cases hy : y ∈ c0.map Prod.fst
      · simp [hy]
      · have : y ≠ s.productName := fun e => hy (e ▸ hmem)
        simp [hy, this]
    · rw [if_neg hmem, List.filter_cons]
      have h1 : decide (s.productName ∉ c0.map Prod.fst) = true := by simpa using hmem
      rw [h1]
      simp only [if_true, List.filter_filter, List.append_assoc, List.singleton_append]
      congr 2
      apply List.filter_congr
      intro y _
      by_cases hy : y ∈ c0.map Prod.fst
      · simp [hy]
      · by_cases hys : y = s.productName
        · simp [hys]
        · simp [hy, hys]

theorem mem_insertIndexKey (k y : String) (l : List String) :
    y ∈ insertIndexKey k l ↔ y = k ∨ y ∈ l := by
  induction l with
  | nil => simp [insertIndexKey]
  | cons x xs ih =>
    unfold insertIndexKey
    split
    · simp
    · simp only [List.mem_cons, ih]
      constructor
      · rintro (h | h | h)
        · exact Or.inr (Or.inl h)
        · exact Or.inl h
        · exact Or.inr (Or.inr h)
      · rintro (h | h | h)
        · exact Or.inr (Or.inl h)
        · exact Or.inl h
        · exact Or.inr (Or.inr h)

theorem mem_sortIndexKeys (y : String) (l : List String) : y ∈ sortIndexKeys l ↔ y ∈ l := by
  induction l with
  | nil => simp [sortIndexKeys]
  | cons x xs ih => simp [sortIndexKeys, mem_insertIndexKey, ih]

theorem mem_ownKeys (y : String) (l : List String) : y ∈ ownKeys l ↔ y ∈ l := by
  simp only [ownKeys, List.mem_append, mem_sortIndexKeys, List.mem_filter]
  constructor
  · rintro (h | h) <;> exact h.1
  · intro h
    cases hidx : (arrayIndex? y).isSome with
    | true => exact Or.inl ⟨h, rfl⟩
    | false => exact Or.inr ⟨h, rfl⟩

theorem ownKeys_of_no_index (l : List String) (h : ∀ k ∈ l, arrayIndex? k = none) :
    ownKeys l = l := by
  have h1 : l.filter (fun k => (arrayIndex? k).isSome) = [] :=
    List.filter_eq_nil_iff.mpr (fun k hk => by simp [h k hk])
  have h2 : l.filter (fun k => !(arrayIndex? k).isSome) = l :=
    List.filter_eq_self.mpr (fun k hk => by simp [h k hk])
  unfold ownKeys
  rw [h1, h2]
  rfl

theorem foldl_pick (c : String → Int) (gt : String → String → Bool)
    (ks pre post : List String) (acc : String)
    (hgt : ∀ x ∈ acc :: ks, ∀ y ∈ ks, (gt x y = true ↔ c x > c y))
    (hpre : ∀ x ∈ pre, c x ≤ c acc) (hpost : ∀ x ∈ post, c x < c acc) :
    ∃ pre' post',
      pre ++ acc :: (post ++ ks) =
        pre' ++ ks.foldl (fun x y => if gt x y = true then x else y) acc :: post' ∧
      (∀ x ∈ pre', c x ≤ c (ks.foldl (fun x y => if gt x y = true then x else y) acc)) ∧
      (∀ x ∈ post', c x < c (ks.foldl (fun x y => if gt x y = true then x else y) acc)) := by
  induction ks generalizing pre post acc with
  | nil => exact ⟨pre, post, by simp, hpre, hpost⟩
  | cons y ks ih =>
    have hiff := hgt acc (List.mem_cons_self _ _) y (List.mem_cons_self _ _)
    by_cases h : gt acc y = true
    · have hc : c acc > c y := hiff.mp h
      obtain ⟨pre', post', hsplit, h1, h2⟩ := ih pre (post ++ [y]) acc
        (fun x hx z hz => hgt x (by
          rcases List.mem_cons.mp hx with hx | hx
          · exact hx ▸ List.mem_cons_self _ _
          · exact List.mem_cons_of_mem _ (List.mem_cons_of_mem _ hx)) z
          (List.mem_cons_of_mem _ hz)) hpre (by
        intro x hx
        rcases List.mem_append.mp hx with hx | hx
        · exact hpost x hx
        · have : x = y := by simpa using hx
          rw [this]; exact hc)
      refine ⟨pre', post', ?_, ?_, ?_⟩
      · simpa [List.foldl_cons, h] using hsplit
      · simpa [List.foldl_cons, h] using h1
      · simpa [List.foldl_cons, h] using h2
    · have hle : c acc ≤ c y := not_lt.mp (fun hc => h (hiff.mpr hc))
      obtain ⟨pre', post', hsplit, h1, h2⟩ := ih (pre ++ acc :: post) [] y
        (fun x hx z hz => hgt x (List.mem_cons_of_mem _ hx) z (List.mem_cons_of_mem _ hz)) (by
        intro x hx
        rcases List.mem_append.mp hx with hx | hx
        · exact le_trans (hpre x hx) hle
        · rcases List.mem_cons.mp hx with rfl | hx
          · exact hle
          · exact le_of_lt (lt_of_lt_of_le (hpost x hx) hle)) (by simp)
      refine ⟨pre', post', ?_, ?_, ?_⟩
      · simpa [List.foldl_cons, h] using hsplit
      · simpa [List.foldl_cons, h] using h1
      · simpa [List.foldl_cons, h] using h2

theorem keys_liftCounts (c : List (String × Int)) :
    (liftCounts c).map Prod.fst = c.map Prod.fst := by
  simp [liftCounts, List.map_map, Function.comp_def]

theorem ownGet_liftCounts (c : List (String × Int)) (k : String) :
    ownGet (liftCounts c) k =
      if k ∈ c.map Prod.fst then some (CountVal.num (plainGet c k)) else none := by
  induction c with
  | nil => simp [liftCounts, ownGet]
  | cons kv rest ih =>
    obtain ⟨key, v⟩ := kv
    have ih' : ownGet (liftCounts rest) k =
        if k ∈ rest.map Prod.fst then some (CountVal.num (plainGet rest k)) else none := ih
    by_cases hk : key = k
    · subst hk
      simp [liftCounts, ownGet, plainGet]
    · have hk' : ¬ k = key := fun e => hk e.symm
      have hstep : ownGet (liftCounts ((key, v) :: rest)) k = ownGet (liftCounts rest) k := by
        simp [liftCounts, ownGet, hk]
      have hget : plainGet ((key, v) :: rest) k = plainGet rest k := by
        simp [plainGet, hk]
      rw [hstep, ih', hget]
      by_cases hm : k ∈ rest.map Prod.fst
      · have hm' : k ∈ ((key, v) :: rest).map Prod.fst := by simp [hm]
        rw [if_pos hm, if_pos hm']
      · have hm' : k ∉ ((key, v) :: rest).map Prod.fst := by
          simpa [hk'] using hm
        rw [if_neg hm, if_neg hm']

theorem plainAdd_of_not_mem (c : List (String × Int)) (k : String) (q : Int)
    (h : k ∉ c.map Prod.fst) : plainAdd c k q = c ++ [(k, orZero 0 + q)] := by
  induction c with
  | nil => simp [plainAdd]
  | cons kv rest ih =>
    obtain ⟨key, v⟩ := kv
    have hk : ¬ key = k := fun e => h (by simp [e])
    have hrest : k ∉ rest.map Prod.fst := fun hm => h (by simp [hm])
    simp [plainAdd, hk, ih hrest]

theorem liftCounts_plainAdd_of_mem (c : List (String × Int)) (k : String) (q : Int)
    (h : k ∈ c.map Prod.fst) :
    liftCounts (plainAdd c k q) =
      replaceOwn (liftCounts c) k (CountVal.num (orZero (plainGet c k) + q)) := by
  induction c with
  | nil => simp at h
  | cons kv rest ih =>
    obtain ⟨key, v⟩ := kv
    by_cases hk : key = k
    · subst hk
      simp [liftCounts, plainAdd, replaceOwn, plainGet]
    · have hrest : k ∈ rest.map Prod.fst := by
        rcases List.mem_cons.mp h with h1 | h1
        · exact absurd h1.symm hk
        · exact h1
      have ih' := ih hrest
      simp only [liftCounts] at ih'
      simp [liftCounts, plainAdd, replaceOwn, plainGet, hk, ih']

theorem prototypeText_proto : prototypeText "__proto__" = some "[object Object]" := by
  simp [prototypeText]

theorem countsAdd_liftCounts (c : List (String × Int)) (k : String) (q : Int)
    (hk : prototypeText k = none) :
    countsAdd (liftCounts c) k q = liftCounts (plainAdd c k q) := by
  have hne : ¬ k = "__proto__" := by
    intro e
    rw [e, prototypeText_proto] at hk
    exact Option.noConfusion hk
  by_cases hmem : k ∈ c.map Prod.fst
  · have hown : ownGet (liftCounts c) k = some (CountVal.num (plainGet c k)) := by
      rw [ownGet_liftCounts, if_pos hmem]
    rw [liftCounts_plainAdd_of_mem c k q hmem]
    simp [countsAdd, countsRead, hown, orZeroPlus]
  · have hown : ownGet (liftCounts c) k = none := by
      rw [ownGet_liftCounts, if_neg hmem]
    rw [plainAdd_of_not_mem c k q hmem]
    simp only [countsAdd, countsRead, hown, hk, hne, if_false, orZeroPlus]
    simp [liftCounts, orZero]

theorem foldl_countsAdd_liftCounts (sales : List Sale) (c0 : List (String × Int))
    (hproto : ∀ s ∈ sales, prototypeText s.productName = none) :
    sales.foldl (fun counts s => countsAdd counts s.productName s.qty) (liftCounts c0) =
      liftCounts (sales.foldl (fun counts s => plainAdd counts s.productName s.qty) c0) := by
  induction sales generalizing c0 with
  | nil => rfl
  | cons s sales ih =>
    rw [List.foldl_cons, List.foldl_cons,
      countsAdd_liftCounts c0 _ _ (hproto s (List.mem_cons_self _ _))]
    exact ih _ (fun x hx => hproto x (List.mem_cons_of_mem _ hx))

theorem tally_eq_liftCounts (sales : List Sale)
    (hproto : ∀ s ∈ sales, prototypeText s.productName = none) :
    tally sales =
      liftCounts (sales.foldl (fun counts s => plainAdd counts s.productName s.qty) []) :=
  foldl_countsAdd_liftCounts sales [] hproto

/-- The result of `getTopProduct` on a ledger with sales none of whose names is
inherited from `Object.prototype`: it is a key `r` of the enumeration
`ownKeys (firstSeen names)` such that no key before it has a larger cumulative
quantity and every key after it has a smaller one. -/
theorem getTopProduct_last_max (a : App) (h : a.db.sales ≠ [])
    (hproto : ∀ s ∈ a.db.sales, prototypeText s.productName = none) :
    ∃ r pre post, DataManager.getTopProduct a = .ok (some r) ∧
      ownKeys (firstSeen (a.db.sales.map (fun s => s.productName))) = pre ++ r :: post ∧
      (∀ k ∈ pre, cumQty a.db.sales k ≤ cumQty a.db.sales r) ∧
      (∀ k ∈ post, cumQty a.db.sales k < cumQty a.db.sales r) := by
  have hlen : ¬ a.db.sales.length = 0 := by
    intro h0; exact h (List.length_eq_zero.mp h0)
  have htally := tally_eq_liftCounts a.db.sales hproto
  have hkeys : (tally a.db.sales).map Prod.fst =
      firstSeen (a.db.sales.map (fun s => s.productName)) := by
    rw [htally, keys_liftCounts, keys_foldl]; simp
  have hget : ∀ n, plainGet (a.db.sales.foldl
      (fun counts s => plainAdd counts s.productName s.qty) []) n = cumQty a.db.sales n := by
    intro n; rw [plainGet_foldl]; simp [plainGet]
  have hread : ∀ x ∈ ownKeys (firstSeen (a.db.sales.map (fun s => s.productName))),
      countsRead (tally a.db.sales) x = ReadVal.own (CountVal.num (cumQty a.db.sales x)) := by
    intro x hx
    have hxk : x ∈ (a.db.sales.foldl
        (fun counts s => plainAdd counts s.productName s.qty) []).map Prod.fst := by
      rw [← keys_liftCounts, ← htally, hkeys]
      exact (mem_ownKeys _ _).mp hx
    simp only [countsRead, htally, ownGet_liftCounts, if_pos hxk, hget]
  cases hk : ownKeys (firstSeen (a.db.sales.map (fun s => s.productName))) with
  | nil =>
    exfalso
    cases hs : a.db.sales with
    | nil => exact h hs
    | cons s ss =>
      have hmem : s.productName ∈ ownKeys (firstSeen (a.db.sales.map (fun s => s.productName))) := by
        rw [mem_ownKeys, mem_firstSeen, hs]; simp
      rw [hk] at hmem
      simp at hmem
  | cons k ks =>
    rw [hk] at hread
    obtain ⟨pre, post, hsplit, h1, h2⟩ := foldl_pick (cumQty a.db.sales)
      (fun x y => jsGt (countsRead (tally a.db.sales) x) (countsRead (tally a.db.sales) y))
      ks [] [] k
      (by
        intro x hx y hy
        beta_reduce
        rw [hread x hx, hread y (List.mem_cons_of_mem _ hy)]
        simp [jsGt])
      (by simp) (by simp)
    refine ⟨_, pre, post, ?_, by simpa using hsplit, h1, h2⟩
    simp only [DataManager.getTopProduct, hlen, if_false, hkeys, hk]

/-- C11 (as stated) fails for product names that a plain object inherits from
`Object.prototype`.  With one sale of a product named `__proto__` the object
`counts` gets no own key and `reduce` throws a `TypeError`; with sales of
`toString` (6 units in all) and A (1 unit) the value stored for `toString` is a
string, every comparison with it is `false`, and the method returns A. -/
theorem getTopProduct_inherited_names :
    protoApp.db.sales.map (fun s => s.productName) = ["__proto__"] ∧
    DataManager.getTopProduct protoApp =
      .error "TypeError: Reduce of empty array with no initial value" ∧
    toStringApp.db.sales.map (fun s => s.productName) = ["toString", "A", "toString"] ∧
    DataManager.getTopProduct toStringApp = .ok (some "A") ∧
    cumQty toStringApp.db.sales "A" < cumQty toStringApp.db.sales "toString" :=
  ⟨by decide, rfl, by decide, rfl, by decide⟩

/-- C11 (amended): on a ledger with no sales `getTopProduct` returns `null`; on
a ledger with at least one sale and in which no sale carries a product name
inherited from `Object.prototype` (`prototypeText` is `none` for every name) it
returns, without raising an error, a name that is the `productName` of some
sale and whose cumulative sold quantity is greater than or equal to that of the
`productName` of every sale. -/
theorem getTopProduct_spec (a : App) :
    (a.db.sales = [] → DataManager.getTopProduct a = .ok none) ∧
    (a.db.sales ≠ [] → (∀ s ∈ a.db.sales, prototypeText s.productName = none) →
      ∃ r, DataManager.getTopProduct a = .ok (some r) ∧
      (∃ s ∈ a.db.sales, s.productName = r) ∧
      ∀ s ∈ a.db.sales, cumQty a.db.sales s.productName ≤ cumQty a.db.sales r) := by
  constructor
  · intro hnil
    simp [DataManager.getTopProduct, hnil]
  · intro hne hproto
    obtain ⟨r, pre, post, hres, hsplit, h1, h2⟩ := getTopProduct_last_max a hne hproto
    have hmemr : r ∈ a.db.sales.map (fun s => s.productName) := by
      rw [← mem_firstSeen, ← mem_ownKeys, hsplit]; simp
    refine ⟨r, hres, ?_, ?_⟩
    · obtain ⟨s, hs, hsr⟩ := List.mem_map.mp hmemr
      exact ⟨s, hs, hsr⟩
    · intro s hs
      have hmem : s.productName ∈ ownKeys (firstSeen (a.db.sales.map (fun s => s.productName))) := by
        rw [mem_ownKeys, mem_firstSeen]; exact List.mem_map.mpr ⟨s, hs, rfl⟩
      rw [hsplit] at hmem
      rcases List.mem_append.mp hmem with hm | hm
      · exact h1 _ hm
      · rcases List.mem_cons.mp hm with hm | hm
        · rw [hm]
        · exact le_of_lt (h2 _ hm)

/-- Witness of `getTopProduct_spec`: with a single sale of A the top product is
A, and the empty ledger has none. -/
theorem getTopProduct_spec_witness :
    DataManager.getTopProduct App.empty = .ok none ∧
    (∀ s ∈ oneSaleApp.db.sales, prototypeText s.productName = none) ∧
    (∃ r, DataManager.getTopProduct oneSaleApp = .ok (some r) ∧
      (∃ s ∈ oneSaleApp.db.sales, s.productName = r) ∧
      ∀ s ∈ oneSaleApp.db.sales, cumQty oneSaleApp.db.sales s.productName ≤
        cumQty oneSaleApp.db.sales r) ∧
    DataManager.getTopProduct oneSaleApp = .ok (some "A") :=
  ⟨(getTopProduct_spec App.empty).1 (by decide), by decide,
    (getTopProduct_spec oneSaleApp).2 (by decide) (by decide), rfl⟩

/-- C12 (as stated) fails: in `tieApp` the names A and B are tied at one unit
each and A is the name encountered first in `sales`, but `getTopProduct`
returns B. -/
theorem getTopProduct_tie_returns_later :
    tieApp.db.sales.map (fun s => s.productName) = ["A", "B"] ∧
    cumQty tieApp.db.sales "A" = 1 ∧ cumQty tieApp.db.sales "B" = 1 ∧
    DataManager.getTopProduct tieApp = .ok (some "B") ∧
    DataManager.getTopProduct tieApp ≠ .ok (some "A") :=
  ⟨by decide, by decide, by decide, rfl, by
    intro h
    have hB : DataManager.getTopProduct tieApp = .ok (some "B") := rfl
    rw [hB] at h
    exact absurd (Option.some.inj (Except.ok.inj h)) (by decide)⟩

/-- C12 (amended): on a non-empty sales list in which no sale carries a product
name inherited from `Object.prototype`, `getTopProduct` returns the name `r`
that comes last, among the names with the highest cumulative sold quantity, in
the order in which `Object.keys` lists the names: every name listed after `r`
has a strictly smaller quantity and no name listed before it has a larger one.
That order lists the names that are array indices first, by numeric value, and
then the other names by first occurrence in `sales`; when no name is an array
index it is the order of first occurrence itself, so that among tied names the
one first encountered latest is returned. -/
theorem getTopProduct_tie_last (a : App) (h : a.db.sales ≠ [])
    (hproto : ∀ s ∈ a.db.sales, prototypeText s.productName = none) :
    (∃ r pre post, DataManager.getTopProduct a = .ok (some r) ∧
      ownKeys (firstSeen (a.db.sales.map (fun s => s.productName))) = pre ++ r :: post ∧
      (∀ k ∈ pre, cumQty a.db.sales k ≤ cumQty a.db.sales r) ∧
      (∀ k ∈ post, cumQty a.db.sales k < cumQty a.db.sales r)) ∧
    ((∀ s ∈ a.db.sales, arrayIndex? s.productName = none) →
      ownKeys (firstSeen (a.db.sales.map (fun s => s.productName))) =
        firstSeen (a.db.sales.map (fun s => s.productName))) := by
  refine ⟨getTopProduct_last_max a h hproto, fun hidx => ownKeys_of_no_index _ ?_⟩
  intro k hk
  obtain ⟨s, hs, hsk⟩ := List.mem_map.mp ((mem_firstSeen _ _).mp hk)
  rw [← hsk]
  exact hidx s hs

/-- Witness of `getTopProduct_tie_last`: in `tieApp` no name is inherited or an
array index, so the names are listed as A, B. -/
theorem getTopProduct_tie_last_witness :
    tieApp.db.sales ≠ [] ∧
    (∀ s ∈ tieApp.db.sales, prototypeText s.productName = none) ∧
    (∃ r pre post, DataManager.getTopProduct tieApp = .ok (some r) ∧
      ownKeys (firstSeen (tieApp.db.sales.map (fun s => s.productName))) = pre ++ r :: post ∧
      (∀ k ∈ pre, cumQty tieApp.db.sales k ≤ cumQty tieApp.db.sales r) ∧
      (∀ k ∈ post, cumQty tieApp.db.sales k < cumQty tieApp.db.sales r)) ∧
    ownKeys (firstSeen (tieApp.db.sales.map (fun s => s.productName))) =
      firstSeen (tieApp.db.sales.map (fun s => s.productName)) ∧
    firstSeen (tieApp.db.sales.map (fun s => s.productName)) = ["A", "B"] :=
  ⟨by decide, by decide, (getTopProduct_tie_last tieApp (by decide) (by decide)).1,
    (getTopProduct_tie_last tieApp (by decide) (by decide)).2 (by decide), by decide⟩

/-- The order of the keys matters: in `indexTieApp` the tied names are B
(encountered first) and 7; `Object.keys` lists the array index 7 before B, and
`getTopProduct` returns B. -/
theorem getTopProduct_index_name_first :
    indexTieApp.db.sales.map (fun s => s.productName) = ["B", "7"] ∧
    ownKeys (firstSeen (indexTieApp.db.sales.map (fun s => s.productName))) = ["7", "B"] ∧
    DataManager.getTopProduct indexTieApp = .ok (some "B") :=
  ⟨by decide, by decide, rfl⟩

/-! ## Cloud backups -/

/-- C17: whatever the upload request gives back, `backupDataCloud` leaves
products, sales, feedback, faults, users, backups and meta unchanged; when the
request throws or the answer carries no name (or an empty one) the whole state,
with the list of cloud-backup references, is unchanged; a reference is appended
exactly on an answer with a non-empty name, and it is the reference to that
name.  `uploadCloudBackup` never changes the local state, whether the upload
succeeds or fails. -/
theorem upload_frame (a : App) (date : String) (res : UploadResponse)
    (remote : Option CloudBackup) (uploaded : Bool) :
    ((backupDataCloud a date res).db.products = a.db.products ∧
      (backupDataCloud a date res).db.sales = a.db.sales ∧
      (backupDataCloud a date res).db.feedback = a.db.feedback ∧
      (backupDataCloud a date res).db.faults = a.db.faults ∧
      (backupDataCloud a date res).db.users = a.db.users ∧
      (backupDataCloud a date res).db.backups = a.db.backups ∧
      (backupDataCloud a date res).db.meta = a.db.meta) ∧
    ((res = .failed ∨ (∃ m, res = .json none m) ∨ (∃ m, res = .json (some "") m)) →
      backupDataCloud a date res = a) ∧
    ((backupDataCloud a date res).db.cloudBackups ≠ a.db.cloudBackups →
      ∃ name m, res = .json (some name) m ∧ name ≠ "") ∧
    (∀ name m, res = .json (some name) m → name ≠ "" →
      (backupDataCloud a date res).db.cloudBackups =
        some (a.db.cloudBackups.getD [] ++ [CloudBackupRef.mk date name m])) ∧
    (uploadCloudBackup a remote date uploaded).1 = a := by
  refine ⟨?_, ?_, ?_, ?_, ?_⟩
  · cases res with
    | failed => simp [backupDataCloud]
    | json name m =>
      cases name with
      | none => simp [backupDataCloud]
      | some n => by_cases hn : n = "" <;> simp [backupDataCloud, hn]
  · rintro (h | ⟨m, h⟩ | ⟨m, h⟩) <;> subst h <;> simp [backupDataCloud]
  · intro hchg
    cases res with
    | failed => exact absurd rfl hchg
    | json name m =>
      cases name with
      | none => exact absurd rfl hchg
      | some n =>
        by_cases hn : n = ""
        · subst hn
          exact absurd rfl hchg
        · exact ⟨n, m, rfl, hn⟩
  · intro name m hres hne
    subst hres
    simp [backupDataCloud, hne]
  · unfold uploadCloudBackup
    split <;> rfl

/-- Witness of `upload_frame`: on `scenarioApp` a failed request and an answer
without name change nothing, and an answer named `backup-1.json` adds one
reference and leaves the products as they are. -/
theorem upload_frame_witness :
    backupDataCloud scenarioApp "t" UploadResponse.failed = scenarioApp ∧
    backupDataCloud scenarioApp "t" (UploadResponse.json none none) = scenarioApp ∧
    (backupDataCloud scenarioApp "t" (UploadResponse.json (some "backup-1.json") none)).db.cloudBackups
      = some [CloudBackupRef.mk "t" "backup-1.json" none] ∧
    (backupDataCloud scenarioApp "t" (UploadResponse.json (some "backup-1.json") none)).db.products
      = scenarioApp.db.products :=
  ⟨(upload_frame scenarioApp "t" UploadResponse.failed none true).2.1 (Or.inl rfl),
    (upload_frame scenarioApp "t" (UploadResponse.json none none) none true).2.1
      (Or.inr (Or.inl ⟨none, rfl⟩)),
    (upload_frame scenarioApp "t" (UploadResponse.json (some "backup-1.json") none) none
      true).2.2.2.1 "backup-1.json" none rfl (by decide),
    (upload_frame scenarioApp "t" (UploadResponse.json (some "backup-1.json") none) none
      true).1.1⟩

/-- After a successful `downloadCloudBackup` of `c` the products, sales and
feedback are those of `c`, while the faults of `db` and the persisted `faults`
entry are the faults `db` held before the call: `save` runs after the entry was
written and writes `db.faults` over it. -/
theorem downloadCloudBackup_result (a : App) (c : CloudBackup) :
    (downloadCloudBackup a (some c)).db.products = c.products.getD [] ∧
    (downloadCloudBackup a (some c)).db.sales = c.sales.getD [] ∧
    (downloadCloudBackup a (some c)).db.feedback = c.feedback.getD [] ∧
    (downloadCloudBackup a (some c)).db.faults = a.db.faults ∧
    (downloadCloudBackup a (some c)).localStorage.faults = some a.db.faults :=
  ⟨rfl, rfl, rfl, rfl, rfl⟩

/-- C18 (the code departs from the claim): `faultyCloudBackup` is what
`uploadCloudBackup` puts into the bucket for a ledger with one fault; after a
successful `downloadCloudBackup` of it on the empty ledger the products are
restored, while the faults of `db` and the persisted `faults` entry are both
empty instead of holding that fault. -/
theorem downloadCloudBackup_loses_faults :
    (uploadCloudBackup faultyApp none "t" true).2 = some faultyCloudBackup ∧
    faultyCloudBackup.faults = some [Fault.mk 2 "broken scanner" none "t"] ∧
    (downloadCloudBackup App.empty (some faultyCloudBackup)).db.products = faultyApp.db.products ∧
    (downloadCloudBackup App.empty (some faultyCloudBackup)).db.faults = [] ∧
    (downloadCloudBackup App.empty (some faultyCloudBackup)).localStorage.faults = some [] := by
  decide

/-- The sibling function `restoreDataCloud` does restore the faults: after a
confirmed restore of `c` the faults of `db` and the persisted entry are those
of `c`. -/
theorem restoreDataCloud_faults (a : App) (c : CloudBackup) :
    (restoreDataCloud a (some c) true).db.faults = c.faults.getD [] ∧
    (restoreDataCloud a (some c) true).localStorage.faults = some (c.faults.getD []) :=
  ⟨rfl, rfl⟩

end Inventory
